import Mathlib

/-!
# Verification of the Clarity analysis engine

A shallow embedding of the `clarity-engine` Rust crate (argument-graph
analysis: contradictions, cycles, topological order, centrality, argument
scores, fallacies, cognitive biases), together with proofs and refutations
of the specification claims.

Modelling conventions:
* Rust `f64` arithmetic is modelled by exact rationals (`ℚ`); all numeric
  claims at issue (bounds, clamping, comparisons) are about values the code
  clamps or compares, so exact arithmetic is the intended reading.
* Rust `HashMap` is modelled by association data with explicit key lists;
  the one place where map iteration order is observable (seeding the
  topological-sort queue) is modelled by an explicit enumeration parameter.
* ASCII case folding stands in for Rust's Unicode `to_lowercase`.
-/

namespace Clarity

/-- A node of the argument graph (types.rs `Proposition`). -/
structure Proposition where
  id : String
  statement : String
  formal_expression : String
  prop_type : String
  confidence : String
  is_implicit : Bool
  is_load_bearing : Bool
  is_anchored : Bool
  deriving Repr, DecidableEq

/-- A directed edge of the argument graph (types.rs `Relationship`). -/
structure Relationship where
  id : String
  from_id : String
  to_id : String
  rel_type : String
  strength : String
  label : Option String
  deriving Repr, DecidableEq

/-- The input graph (types.rs `LogicalGraph`). -/
structure LogicalGraph where
  propositions : List Proposition
  relationships : List Relationship
  deriving Repr, DecidableEq

/-- types.rs `is_dependency_edge`. -/
def is_dependency_edge (rel_type : String) : Bool :=
  rel_type = "supports" || rel_type = "depends_on" || rel_type = "assumes"

/-- types.rs `LogicalGraph::get_proposition`: first proposition with the id. -/
def LogicalGraph.get_proposition (g : LogicalGraph) (i : String) : Option Proposition :=
  g.propositions.find? (fun p => p.id = i)

/-- types.rs `LogicalGraph::get_relationships_from`. -/
def LogicalGraph.get_relationships_from (g : LogicalGraph) (i : String) : List Relationship :=
  g.relationships.filter (fun r => r.from_id = i)

/-- types.rs `LogicalGraph::get_relationships_to`. -/
def LogicalGraph.get_relationships_to (g : LogicalGraph) (i : String) : List Relationship :=
  g.relationships.filter (fun r => r.to_id = i)

/-- types.rs `LogicalGraph::get_propositions_by_type`. -/
def LogicalGraph.get_propositions_by_type (g : LogicalGraph) (t : String) : List Proposition :=
  g.propositions.filter (fun p => p.prop_type = t)

/-- The dependency edges of the graph, in input order. -/
def depRels (g : LogicalGraph) : List Relationship :=
  g.relationships.filter (fun r => is_dependency_edge r.rel_type)

/-- The ids of the propositions, in input order. -/
def propIds (g : LogicalGraph) : List String :=
  g.propositions.map (·.id)

/-- Out-neighbours of `u` along dependency edges, in input edge order.
This is the entry of types.rs `get_dependency_adjacency` at key `u`
(an absent key behaves as the empty list). -/
def adjOf (g : LogicalGraph) (u : String) : List String :=
  ((depRels g).filter (fun r => r.from_id = u)).map (·.to_id)

/-- The dependency-edge relation between node ids. -/
def depEdge (g : LogicalGraph) (u v : String) : Prop :=
  ∃ r ∈ depRels g, r.from_id = u ∧ r.to_id = v

instance (g : LogicalGraph) (u v : String) : Decidable (depEdge g u v) :=
  inferInstanceAs (Decidable (∃ r ∈ depRels g, r.from_id = u ∧ r.to_id = v))

/-- A node lies on a dependency cycle: a nonempty dependency path from it to itself. -/
def OnCycle (g : LogicalGraph) (v : String) : Prop :=
  Relation.TransGen (depEdge g) v v

/-! ## A computable lexicographic string order

Rust sorts and minimises strings by byte-lexicographic order, which agrees
with code-point order on UTF-8.  The kernel cannot evaluate the library
order on `String`, so the passes use this structural one. -/

/-- Lexicographic `≤` on character lists via code points. -/
def charListLe : List Char → List Char → Bool
  | [], _ => true
  | _ :: _, [] => false
  | a :: as, b :: bs =>
    if a.toNat < b.toNat then true
    else if b.toNat < a.toNat then false
    else charListLe as bs

/-- Lexicographic `<` on character lists via code points. -/
def charListLt : List Char → List Char → Bool
  | [], [] => false
  | [], _ :: _ => true
  | _ :: _, [] => false
  | a :: as, b :: bs =>
    if a.toNat < b.toNat then true
    else if b.toNat < a.toNat then false
    else charListLt as bs

/-- The string order used by the sorts: Rust's `Ord` on `String`. -/
def strOrd (a b : String) : Prop :=
  charListLe a.data b.data = true

/-- Rust's strict `<` on `String`. -/
def strLtB (a b : String) : Bool :=
  charListLt a.data b.data

instance : DecidableRel strOrd := by
  unfold strOrd; infer_instance

theorem charToNat_inj {a b : Char} (h : a.toNat = b.toNat) : a = b :=
  Char.ext (UInt32.toNat.inj h)

theorem charListLe_total : ∀ x y : List Char, charListLe x y = true ∨ charListLe y x = true := by
  intro x
  induction x with
  | nil => intro y; left; rfl
  | cons a as ih =>
    intro y
    cases y with
    | nil => right; rfl
    | cons b bs =>
      by_cases hab : a.toNat < b.toNat
      · left; simp [charListLe, hab]
      · by_cases hba : b.toNat < a.toNat
        · right; simp [charListLe, hba]
        · rcases ih bs with h | h
          · left; simp [charListLe, hab, hba, h]
          · right; simp [charListLe, hab, hba, h]

theorem charListLe_trans : ∀ x y z : List Char,
    charListLe x y = true → charListLe y z = true → charListLe x z = true := by
  intro x
  induction x with
  | nil => intro y z _ _; rfl
  | cons a as ih =>
    intro y z hxy hyz
    cases y with
    | nil => simp [charListLe] at hxy
    | cons b bs =>
      cases z with
      | nil => simp [charListLe] at hyz
      | cons c cs =>
        simp only [charListLe] at hxy hyz ⊢
        by_cases hab : a.toNat < b.toNat
        · by_cases hbc : b.toNat < c.toNat
          · simp [show a.toNat < c.toNat by omega]
          · simp only [if_pos hab] at hxy
            by_cases hcb : c.toNat < b.toNat
            · simp [if_neg hbc, if_pos hcb] at hyz
            · have : b.toNat = c.toNat := by omega
              simp [show a.toNat < c.toNat by omega]
        · by_cases hba : b.toNat < a.toNat
          · simp [if_neg hab, if_pos hba] at hxy
          · have hab' : a.toNat = b.toNat := by omega
            by_cases hbc : b.toNat < c.toNat
            · simp [show a.toNat < c.toNat by omega]
            · by_cases hcb : c.toNat < b.toNat
              · simp [if_neg hbc, if_pos hcb] at hyz
              · simp only [if_neg hab, if_neg hba] at hxy
                simp only [if_neg hbc, if_neg hcb] at hyz
                simp only [show ¬ a.toNat < c.toNat by omega,
                  show ¬ c.toNat < a.toNat by omega, if_neg, ite_false]
                exact ih bs cs hxy hyz

theorem charListLe_antisymm : ∀ x y : List Char,
    charListLe x y = true → charListLe y x = true → x = y := by
  intro x
  induction x with
  | nil =>
    intro y _ hyx
    cases y with
    | nil => rfl
    | cons b bs => simp [charListLe] at hyx
  | cons a as ih =>
    intro y hxy hyx
    cases y with
    | nil => simp [charListLe] at hxy
    | cons b bs =>
      simp only [charListLe] at hxy hyx
      by_cases hab : a.toNat < b.toNat
      · simp [if_neg (show ¬ b.toNat < a.toNat by omega), if_pos hab] at hyx
      · by_cases hba : b.toNat < a.toNat
        · simp [if_neg hab, if_pos hba] at hxy
        · have hval : a = b := charToNat_inj (by omega)
          simp only [if_neg hab, if_neg hba] at hxy hyx
          rw [hval, ih bs hxy hyx]

instance : IsTotal String strOrd :=
  ⟨fun a b => charListLe_total a.data b.data⟩

instance : IsTrans String strOrd :=
  ⟨fun a b c => charListLe_trans a.data b.data c.data⟩

instance : IsAntisymm String strOrd :=
  ⟨fun a b h1 h2 => by
    have h := charListLe_antisymm a.data b.data h1 h2
    cases a; cases b; exact congrArg String.mk h⟩

theorem charListLt_connected : ∀ x y : List Char,
    charListLt x y = false → charListLt y x = false → x = y := by
  intro x
  induction x with
  | nil =>
    intro y h1 _
    cases y with
    | nil => rfl
    | cons b bs => simp [charListLt] at h1
  | cons a as ih =>
    intro y h1 h2
    cases y with
    | nil => simp [charListLt] at h2
    | cons b bs =>
      simp only [charListLt] at h1 h2
      by_cases hab : a.toNat < b.toNat
      · simp [if_pos hab] at h1
      · by_cases hba : b.toNat < a.toNat
        · simp [if_neg (show ¬ a.toNat < b.toNat from hab), if_pos hba] at h2
        · have hval : a = b := charToNat_inj (by omega)
          simp only [if_neg hab, if_neg hba] at h1 h2
          rw [hval, ih bs h1 h2]

/-- Connectedness of the strict order: mutually unrelated strings are equal. -/
theorem strLtB_connected (a b : String) (h1 : strLtB a b = false) (h2 : strLtB b a = false) :
    a = b := by
  unfold strLtB at h1 h2
  have h := charListLt_connected a.data b.data h1 h2
  cases a; cases b; exact congrArg String.mk h

/-! ## Topological sort (graph/topo_sort.rs)

Kahn's algorithm.  The Rust code keeps an `in_degree : HashMap<&str, usize>`
whose key set is the proposition ids together with the targets of dependency
edges; the queue is seeded from a (hash-ordered) iteration of that map and
then sorted, so the seeding is modelled by an explicit enumeration parameter
that ranges over permutations of the key list. -/

/-- The key set of the `in_degree` map: proposition ids plus dependency-edge
targets, first occurrences kept. -/
def degKeys (g : LogicalGraph) : List String :=
  (propIds g ++ (depRels g).map (·.to_id)).dedup

/-- Initial in-degree: the number of dependency edges into `v`. -/
def inDeg0 (g : LogicalGraph) (v : String) : Nat :=
  ((depRels g).filter (fun r => r.to_id = v)).length

/-- One neighbour step of Kahn's algorithm: decrement the neighbour's
in-degree if it is tracked, and enqueue it when the degree reaches zero. -/
def kahnVisit (keys : List String) (st : (String → Nat) × List String) (nb : String) :
    (String → Nat) × List String :=
  if nb ∈ keys then
    let d := st.1 nb - 1
    (fun v => if v = nb then d else st.1 v, if d = 0 then st.2 ++ [nb] else st.2)
  else st

/-- The main loop of Kahn's algorithm.  `fuel` only bounds the number of
pops; it is always chosen large enough (each key is enqueued at most once). -/
def kahnLoop (g : LogicalGraph) (keys : List String) :
    Nat → List String → (String → Nat) → List String → List String
  | 0, _, _, result => result
  | _ + 1, [], _, result => result
  | fuel + 1, node :: rest, deg, result =>
    let ns := List.insertionSort strOrd (adjOf g node)
    let st := ns.foldl (kahnVisit keys) (deg, [])
    kahnLoop g keys fuel (rest ++ st.2) st.1 (result ++ [node])

/-- Topological sort with the in-degree map enumerated as `enum`
(graph/topo_sort.rs `topological_sort`, with the hash-map iteration made
explicit).  The zero-in-degree seeds are sorted before processing. -/
def topological_sort_seed (g : LogicalGraph) (enum : List String) : List String :=
  let keys := degKeys g
  let seed := List.insertionSort strOrd (enum.filter (fun v => inDeg0 g v = 0))
  kahnLoop g keys (g.propositions.length + g.relationships.length + 1) seed (inDeg0 g) []

/-- graph/topo_sort.rs `topological_sort` with the canonical enumeration. -/
def topological_sort (g : LogicalGraph) : List String :=
  topological_sort_seed g (degKeys g)

/-! ### Counting infrastructure for the Kahn invariants -/

/-- Number of dependency edges into `v` whose source is listed in `R`. -/
def cntR (g : LogicalGraph) (R : List String) (v : String) : Nat :=
  (depRels g).countP (fun r => decide (r.to_id = v ∧ r.from_id ∈ R))

/-- Number of dependency edges from `u` to `v` (edge multiplicity). -/
def multE (g : LogicalGraph) (u v : String) : Nat :=
  (depRels g).countP (fun r => decide (r.from_id = u ∧ r.to_id = v))

theorem inDeg0_eq_countP (g : LogicalGraph) (v : String) :
    inDeg0 g v = (depRels g).countP (fun r => decide (r.to_id = v)) := by
  simp [inDeg0, List.countP_eq_length_filter]

theorem countP_le_countP_of_imp {α : Type} (l : List α) (p q : α → Bool)
    (h : ∀ x ∈ l, p x = true → q x = true) : l.countP p ≤ l.countP q := by
  induction l with
  | nil => simp
  | cons a t ih =>
    have ht := ih (fun x hx => h x (List.mem_cons_of_mem a hx))
    by_cases hp : p a = true
    · rw [List.countP_cons_of_pos _ _ hp, List.countP_cons_of_pos _ _ (h a (by simp) hp)]
      omega
    · rw [List.countP_cons_of_neg _ _ hp]
      by_cases hq : q a = true
      · rw [List.countP_cons_of_pos _ _ hq]; omega
      · rw [List.countP_cons_of_neg _ _ hq]; exact ht

theorem countP_eq_imp_rev {α : Type} (l : List α) (p q : α → Bool)
    (h : ∀ x ∈ l, p x = true → q x = true) (he : l.countP q ≤ l.countP p) :
    ∀ x ∈ l, q x = true → p x = true := by
  induction l with
  | nil => simp
  | cons a t ih =>
    have hmono := countP_le_countP_of_imp t p q (fun x hx => h x (List.mem_cons_of_mem a hx))
    intro x hx hq
    rcases List.mem_cons.mp hx with rfl | hxt
    · by_contra hp
      rw [List.countP_cons_of_neg _ _ hp, List.countP_cons_of_pos _ _ hq] at he
      omega
    · refine ih (fun y hy => h y (List.mem_cons_of_mem a hy)) ?_ x hxt hq
      by_cases hp : p a = true
      · rw [List.countP_cons_of_pos _ _ hp,
          List.countP_cons_of_pos _ _ (h a (by simp) hp)] at he
        omega
      · rw [List.countP_cons_of_neg _ _ hp] at he
        by_cases hqa : q a = true
        · rw [List.countP_cons_of_pos _ _ hqa] at he; omega
        · rw [List.countP_cons_of_neg _ _ hqa] at he; omega

theorem cntR_le_inDeg0 (g : LogicalGraph) (R : List String) (v : String) :
    cntR g R v ≤ inDeg0 g v := by
  rw [inDeg0_eq_countP]
  exact countP_le_countP_of_imp _ _ _ (by intro r _ h; simp_all)

/-- Splitting the source count at a node not already listed. -/
theorem cntR_append_single (g : LogicalGraph) (R : List String) (node v : String)
    (hn : node ∉ R) : cntR g (R ++ [node]) v = cntR g R v + multE g node v := by
  unfold cntR multE
  induction depRels g with
  | nil => simp
  | cons r t ih =>
    by_cases h1 : r.to_id = v ∧ r.from_id ∈ R
    · have hApp : r.to_id = v ∧ r.from_id ∈ R ++ [node] := ⟨h1.1, by simp [h1.2]⟩
      have hne : ¬(r.from_id = node ∧ r.to_id = v) := by
        rintro ⟨rfl, -⟩; exact hn h1.2
      rw [List.countP_cons_of_pos _ _ (by simpa using hApp),
        List.countP_cons_of_pos _ _ (by simpa using h1),
        List.countP_cons_of_neg _ _ (by simpa using hne)]
      omega
    · by_cases h2 : r.from_id = node ∧ r.to_id = v
      · have hApp : r.to_id = v ∧ r.from_id ∈ R ++ [node] := ⟨h2.2, by simp [h2.1]⟩
        rw [List.countP_cons_of_pos _ _ (by simpa using hApp),
          List.countP_cons_of_neg _ _ (by simpa using h1),
          List.countP_cons_of_pos _ _ (by simpa using h2)]
        omega
      · have hApp : ¬(r.to_id = v ∧ r.from_id ∈ R ++ [node]) := by
          rintro ⟨hv, hm⟩
          rcases List.mem_append.mp hm with hm | hm
          · exact h1 ⟨hv, hm⟩
          · exact h2 ⟨by simpa using hm, hv⟩
        rw [List.countP_cons_of_neg _ _ (by simpa using hApp),
          List.countP_cons_of_neg _ _ (by simpa using h1),
          List.countP_cons_of_neg _ _ (by simpa using h2)]
        exact ih

theorem cntR_mono_append (g : LogicalGraph) (R S : List String) (v : String) :
    cntR g R v ≤ cntR g (R ++ S) v := by
  apply countP_le_countP_of_imp
  intro r _ h
  simp only [decide_eq_true_eq] at h ⊢
  exact ⟨h.1, List.mem_append.mpr (Or.inl h.2)⟩

/-- Together with `cntR_le_inDeg0`: counting edges into `v` from `R` and
from a fresh node separately never exceeds the total in-degree. -/
theorem cntR_add_multE_le (g : LogicalGraph) (R : List String) (node v : String)
    (hn : node ∉ R) : cntR g R v + multE g node v ≤ inDeg0 g v := by
  rw [← cntR_append_single g R node v hn]
  exact cntR_le_inDeg0 g _ v

/-- Full in-count means every dependency edge into `v` originates in `R`. -/
theorem cntR_full (g : LogicalGraph) (R : List String) (v : String)
    (h : inDeg0 g v ≤ cntR g R v) :
    ∀ r ∈ depRels g, r.to_id = v → r.from_id ∈ R := by
  intro r hr hto
  have := countP_eq_imp_rev (depRels g)
    (fun r => decide (r.to_id = v ∧ r.from_id ∈ R)) (fun r => decide (r.to_id = v))
    (by intro x _ hx; simp_all) (by rw [← inDeg0_eq_countP]; exact h) r hr (by simpa using hto)
  simpa using (of_decide_eq_true this).2

/-- Multiplicity of `v` among the dependency out-neighbours of `u`. -/
theorem count_adjOf (g : LogicalGraph) (u v : String) :
    (adjOf g u).count v = multE g u v := by
  unfold adjOf multE
  rw [List.count_eq_countP, List.countP_map, List.countP_filter]
  apply List.countP_congr
  intro r _
  constructor
  · intro h
    have h' := of_decide_eq_true (Bool.and_elim_right h)
    have h2 : r.to_id = v := by
      have := Bool.and_elim_left h
      simpa [Function.comp] using of_decide_eq_true (by simpa [Function.comp] using this)
    exact decide_eq_true ⟨h', h2⟩
  · intro h
    obtain ⟨h1, h2⟩ := of_decide_eq_true h
    refine Bool.and_intro ?_ (decide_eq_true h1)
    simp [Function.comp, h2]

/-- Every dependency out-neighbour is a tracked in-degree key. -/
theorem adjOf_subset_degKeys (g : LogicalGraph) (u : String) :
    ∀ v ∈ adjOf g u, v ∈ degKeys g := by
  intro v hv
  unfold adjOf at hv
  rcases List.mem_map.mp hv with ⟨r, hr, rfl⟩
  have : r.to_id ∈ (depRels g).map (·.to_id) := List.mem_map_of_mem _ (List.mem_of_mem_filter hr)
  unfold degKeys
  rw [List.mem_dedup]
  exact List.mem_append.mpr (Or.inr this)

/-- Exact characterisation of one pass of the neighbour fold: every tracked
occurrence decrements the degree, and a node is enqueued exactly when its
degree is consumed completely (given the degree budget covers the list). -/
theorem kahnFold_spec (keys : List String) :
    ∀ (l : List String) (d : String → Nat) (p : List String),
      (∀ v ∈ l, v ∈ keys) → (∀ v, l.count v ≤ d v) →
      ∃ q, (l.foldl (kahnVisit keys) (d, p)).1 = (fun v => d v - l.count v) ∧
        (l.foldl (kahnVisit keys) (d, p)).2 = p ++ q ∧
        q.Nodup ∧ (∀ v, v ∈ q ↔ v ∈ l ∧ d v = l.count v) := by
  intro l
  induction l with
  | nil =>
    intro d p _ _
    exact ⟨[], by funext v; simp, by simp, by simp, by simp⟩
  | cons nb t ih =>
    intro d p hk hb
    have hnbk : nb ∈ keys := hk nb (by simp)
    have hbd : 1 ≤ d nb := le_trans (by simp [List.count_cons]) (hb nb)
    simp only [List.foldl_cons, kahnVisit, if_pos hnbk]
    set d1 : String → Nat := fun v => if v = nb then d nb - 1 else d v with hd1
    have hb1 : ∀ v, t.count v ≤ d1 v := by
      intro v
      by_cases hv : v = nb
      · subst hv
        have := hb v
        simp only [List.count_cons_self] at this
        simp only [hd1, if_pos rfl]
        omega
      · have := hb v
        rw [List.count_cons_of_ne hv] at this
        simpa [hd1, hv] using this
    have hk1 : ∀ v ∈ t, v ∈ keys := fun v hv => hk v (List.mem_cons_of_mem _ hv)
    by_cases h0 : d nb - 1 = 0
    · -- the degree of `nb` is consumed at this very occurrence
      have hdnb : d nb = 1 := by omega
      have hcnt : t.count nb = 0 := by
        have := hb nb
        simp only [List.count_cons_self, hdnb] at this
        omega
      have hnbt : nb ∉ t := by
        intro h
        have := List.count_pos_iff.mpr h
        omega
      obtain ⟨q1, hf1, hf2, hnd, hm⟩ := ih d1 (p ++ [nb]) hk1 hb1
      refine ⟨nb :: q1, ?_, ?_, ?_, ?_⟩
      · simp only [if_pos h0, hf1]
        funext v
        by_cases hv : v = nb
        · subst hv; simp [hd1, List.count_cons_self, hdnb, hcnt]
        · simp [hd1, hv, List.count_cons_of_ne hv]
      · simp only [if_pos h0, hf2, List.append_assoc, List.singleton_append]
      · refine List.nodup_cons.mpr ⟨fun h => ?_, hnd⟩
        exact hnbt ((hm nb).mp h).1
      · intro v
        by_cases hv : v = nb
        · subst hv
          simp only [List.mem_cons, true_or, true_iff, true_and, eq_self_iff_true]
          simp [List.count_cons_self, hcnt, hdnb]
        · rw [List.mem_cons]
          simp only [hv, false_or]
          rw [hm v]
          constructor
          · rintro ⟨hvt, hdv⟩
            exact ⟨List.mem_cons_of_mem _ hvt, by simpa [hd1, hv, List.count_cons_of_ne hv] using hdv⟩
          · rintro ⟨hvl, hdv⟩
            rcases List.mem_cons.mp hvl with h | h
            · exact absurd h hv
            · exact ⟨h, by simpa [hd1, hv, List.count_cons_of_ne hv] using hdv⟩
    · -- the degree of `nb` stays positive here
      obtain ⟨q1, hf1, hf2, hnd, hm⟩ := ih d1 p hk1 hb1
      refine ⟨q1, ?_, ?_, hnd, ?_⟩
      · simp only [if_neg h0, hf1]
        funext v
        by_cases hv : v = nb
        · subst hv
          simp only [hd1, if_pos rfl, List.count_cons_self]
          omega
        · simp [hd1, hv, List.count_cons_of_ne hv]
      · simp only [if_neg h0, hf2]
      · intro v
        rw [hm v]
        by_cases hv : v = nb
        · subst hv
          simp only [hd1, if_pos rfl, List.mem_cons, true_or, true_and, List.count_cons_self]
          constructor
          · rintro ⟨hvt, hdv⟩
            omega
          · rintro h
            have hpos : 1 ≤ t.count v := by omega
            exact ⟨List.count_pos_iff.mp hpos, by omega⟩
        · simp only [hd1, if_neg hv, List.mem_cons, hv, false_or, List.count_cons_of_ne hv]

end Clarity

namespace Clarity

/-- `ordered` rendered as a predicate: every dependency edge into a listed
node comes from strictly earlier in the list. -/
def ResultClosed (g : LogicalGraph) (res : List String) : Prop :=
  ∀ i (h : i < res.length) r, r ∈ depRels g → r.to_id = res.get ⟨i, h⟩ →
    r.from_id ∈ res.take i

/-- The loop invariant of Kahn's algorithm. -/
structure KahnInv (g : LogicalGraph) (queue : List String) (deg : String → Nat)
    (res : List String) : Prop where
  nodup : (res ++ queue).Nodup
  acct : ∀ v, deg v = inDeg0 g v - cntR g res v
  closed : ∀ v ∈ res ++ queue, inDeg0 g v ≤ cntR g res v
  ordered : ResultClosed g res

theorem take_append_le {α : Type} (l1 l2 : List α) (i : Nat) (h : i ≤ l1.length) :
    (l1 ++ l2).take i = l1.take i := by
  rw [List.take_append_eq_append_take, Nat.sub_eq_zero_of_le h, List.take_zero,
    List.append_nil]

theorem ResultClosed.append (g : LogicalGraph) (res : List String) (node : String)
    (ho : ResultClosed g res)
    (hnode : ∀ r ∈ depRels g, r.to_id = node → r.from_id ∈ res) :
    ResultClosed g (res ++ [node]) := by
  intro i h r hr hto
  rcases Nat.lt_or_ge i res.length with hi | hi
  · have hget : (res ++ [node]).get ⟨i, h⟩ = res.get ⟨i, hi⟩ := List.get_append _ hi
    rw [take_append_le _ _ _ (Nat.le_of_lt hi)]
    exact ho i hi r hr (hto.trans hget)
  · have hlen : (res ++ [node]).length = res.length + 1 := by simp
    have hieq : i = res.length := by omega
    subst hieq
    have hget : (res ++ [node]).get ⟨res.length, h⟩ = node := by
      rw [List.get_eq_getElem, List.getElem_append_right (le_refl _)]
      simp
    rw [take_append_le _ _ _ (le_refl _), List.take_length]
    exact hnode r hr (hto.trans hget)

theorem cntR_nil (g : LogicalGraph) (v : String) : cntR g [] v = 0 := by
  unfold cntR
  exact List.countP_eq_zero.mpr (by simp)

/-- One pop of Kahn's loop preserves the invariant. -/
theorem kahnInv_step (g : LogicalGraph) (node : String) (rest : List String)
    (deg : String → Nat) (res : List String)
    (hinv : KahnInv g (node :: rest) deg res) :
    KahnInv g
      (rest ++ ((List.insertionSort strOrd (adjOf g node)).foldl
        (kahnVisit (degKeys g)) (deg, [])).2)
      ((List.insertionSort strOrd (adjOf g node)).foldl
        (kahnVisit (degKeys g)) (deg, [])).1
      (res ++ [node]) := by
  set ns := List.insertionSort strOrd (adjOf g node) with hns
  have hperm : List.Perm ns (adjOf g node) := List.perm_insertionSort _ _
  have hcount : ∀ v, ns.count v = multE g node v := by
    intro v; rw [hperm.count_eq, count_adjOf]
  have hkeys : ∀ v ∈ ns, v ∈ degKeys g := by
    intro v hv; exact adjOf_subset_degKeys g node v (hperm.mem_iff.mp hv)
  have hnoderes : node ∉ res := by
    have := hinv.nodup
    rw [List.nodup_append] at this
    exact fun h => this.2.2 h (by simp)
  have hbudget : ∀ v, ns.count v ≤ deg v := by
    intro v
    rw [hcount v, hinv.acct v]
    have h1 := cntR_add_multE_le g res node v hnoderes
    have h2 := cntR_le_inDeg0 g res v
    omega
  obtain ⟨q, hf1, hf2, hndq, hmq⟩ := kahnFold_spec (degKeys g) ns deg [] hkeys hbudget
  have hns_not_mem : ∀ v ∈ ns, v ∉ res ++ node :: rest := by
    intro v hv hmem
    have hm : 1 ≤ multE g node v := by
      rw [← hcount v]; exact List.count_pos_iff.mpr hv
    have hcl := hinv.closed v hmem
    have := cntR_add_multE_le g res node v hnoderes
    omega
  have hqsub : ∀ v ∈ q, v ∈ ns := fun v hv => ((hmq v).mp hv).1
  constructor
  · -- nodup
    rw [hf2, List.nil_append]
    have hrearr : (res ++ [node]) ++ (rest ++ q) = (res ++ node :: rest) ++ q := by
      simp
    rw [hrearr, List.nodup_append]
    refine ⟨hinv.nodup, hndq, ?_⟩
    intro a ha haq
    exact hns_not_mem a (hqsub a haq) ha
  · -- accounting
    intro v
    rw [hf1]
    simp only
    rw [hinv.acct v, hcount v, cntR_append_single g res node v hnoderes, Nat.sub_sub]
  · -- closed
    intro v hv
    rw [hf2, List.nil_append] at hv
    have hmono := cntR_mono_append g res [node] v
    rcases List.mem_append.mp hv with hv | hv
    · rcases List.mem_append.mp hv with hv | hv
      · exact le_trans (hinv.closed v (List.mem_append.mpr (Or.inl hv))) hmono
      · have : v = node := by simpa using hv
        subst this
        exact le_trans (hinv.closed v (List.mem_append.mpr (Or.inr (by simp)))) hmono
    · rcases List.mem_append.mp hv with hv | hv
      · exact le_trans (hinv.closed v (List.mem_append.mpr (Or.inr (by simp [hv])))) hmono
      · have hq := (hmq v).mp hv
        have hdv : deg v = multE g node v := by rw [hq.2, hcount v]
        have hacct := hinv.acct v
        have hle := cntR_le_inDeg0 g res v
        rw [cntR_append_single g res node v hnoderes]
        omega
  · -- ordered
    refine ResultClosed.append g res node hinv.ordered ?_
    have hcl := hinv.closed node (List.mem_append.mpr (Or.inr (by simp)))
    exact cntR_full g res node hcl

/-- The invariant yields the two structural facts about the loop's output. -/
theorem kahnLoop_props (g : LogicalGraph) :
    ∀ (fuel : Nat) (queue : List String) (deg : String → Nat) (res : List String),
      KahnInv g queue deg res →
      (kahnLoop g (degKeys g) fuel queue deg res).Nodup ∧
        ResultClosed g (kahnLoop g (degKeys g) fuel queue deg res) := by
  intro fuel
  induction fuel with
  | zero =>
    intro queue deg res hinv
    have hn := hinv.nodup
    rw [List.nodup_append] at hn
    exact ⟨hn.1, hinv.ordered⟩
  | succ n ih =>
    intro queue deg res hinv
    cases queue with
    | nil =>
      have hn := hinv.nodup
      rw [List.nodup_append] at hn
      exact ⟨hn.1, hinv.ordered⟩
    | cons node rest =>
      exact ih _ _ _ (kahnInv_step g node rest deg res hinv)

/-- The initial state of Kahn's algorithm satisfies the invariant, for any
duplicate-free enumeration of the in-degree keys. -/
theorem kahnInv_init (g : LogicalGraph) (enum : List String) (henum : enum.Nodup) :
    KahnInv g (List.insertionSort strOrd (enum.filter (fun v => inDeg0 g v = 0)))
      (inDeg0 g) [] := by
  constructor
  · rw [List.nil_append]
    exact ((List.perm_insertionSort _ _).nodup_iff).mpr (henum.filter _)
  · intro v
    rw [cntR_nil]
    omega
  · intro v hv
    rw [List.nil_append, List.mem_insertionSort] at hv
    have h0 : inDeg0 g v = 0 := by simpa using List.of_mem_filter hv
    rw [cntR_nil, h0]
  · intro i h
    simp at h

/-- Structural facts about the canonical topological sort: the output has no
duplicates and every dependency edge into a listed node comes from earlier. -/
theorem topological_sort_props (g : LogicalGraph) :
    (topological_sort g).Nodup ∧ ResultClosed g (topological_sort g) := by
  unfold topological_sort topological_sort_seed
  exact kahnLoop_props g _ _ _ _ (kahnInv_init g (degKeys g) (List.nodup_dedup _))

/-- A closed result list is closed under dependency predecessors. -/
theorem ResultClosed.pred_mem (g : LogicalGraph) (res : List String)
    (hc : ResultClosed g res) :
    ∀ v ∈ res, ∀ r ∈ depRels g, r.to_id = v → r.from_id ∈ res := by
  intro v hv r hr hto
  obtain ⟨⟨i, hi⟩, hget⟩ := List.get_of_mem hv
  have := hc i hi r hr (by rw [hget, hto])
  exact List.take_subset _ _ this

/-- No member of a closed result list lies on a dependency cycle. -/
theorem ResultClosed.not_onCycle (g : LogicalGraph) (res : List String)
    (hc : ResultClosed g res) : ∀ v ∈ res, ¬ OnCycle g v := by
  suffices h : ∀ i (hi : i < res.length), ¬ OnCycle g (res.get ⟨i, hi⟩) by
    intro v hv hcyc
    obtain ⟨⟨i, hi⟩, hget⟩ := List.get_of_mem hv
    exact h i hi (by rw [hget]; exact hcyc)
  intro i
  induction i using Nat.strong_induction_on with
  | _ i ih =>
    intro hi hcyc
    obtain ⟨u, hvu, hedge⟩ := Relation.TransGen.tail'_iff.mp hcyc
    obtain ⟨r, hr, hfrom, hto⟩ := hedge
    have hmem : r.from_id ∈ res.take i := hc i hi r hr hto
    rw [List.mem_take_iff_getElem] at hmem
    obtain ⟨j, hj, hget⟩ := hmem
    have hjlt : j < i := lt_of_lt_of_le hj (min_le_left _ _)
    have hjlen : j < res.length := lt_trans hjlt hi
    refine ih j hjlt hjlen ?_
    have hju : res.get ⟨j, hjlen⟩ = u := by
      rw [List.get_eq_getElem]
      rw [show res[j] = r.from_id from hget, hfrom]
    rw [hju]
    exact Relation.TransGen.head' ⟨r, hr, hfrom, hto⟩ hvu

/-- Anything dependency-reachable from a node outside a closed result list is
itself outside the list. -/
theorem ResultClosed.reach_not_mem (g : LogicalGraph) (res : List String)
    (hc : ResultClosed g res) (u v : String)
    (hreach : Relation.ReflTransGen (depEdge g) u v) (hu : u ∉ res) : v ∉ res := by
  induction hreach with
  | refl => exact hu
  | tail _ hedge ih =>
    intro hmem
    obtain ⟨r, hr, hfrom, hto⟩ := hedge
    exact ih (by
      have := ResultClosed.pred_mem g res hc _ hmem r hr hto
      rwa [hfrom] at this)

/-- Precedence along dependency edges in a closed result list. -/
theorem ResultClosed.precedes (g : LogicalGraph) (res : List String)
    (hc : ResultClosed g res) (r : Relationship) (hr : r ∈ depRels g)
    (hto : r.to_id ∈ res) :
    ∃ i j, ∃ hi : i < res.length, ∃ hj : j < res.length,
      i < j ∧ res.get ⟨i, hi⟩ = r.from_id ∧ res.get ⟨j, hj⟩ = r.to_id := by
  obtain ⟨⟨j, hj⟩, hgetj⟩ := List.get_of_mem hto
  have hmem : r.from_id ∈ res.take j := hc j hj r hr hgetj.symm
  rw [List.mem_take_iff_getElem] at hmem
  obtain ⟨i, hij, hgeti⟩ := hmem
  have hilt : i < j := lt_of_lt_of_le hij (min_le_left _ _)
  refine ⟨i, j, lt_trans hilt hj, hj, hilt, ?_, hgetj⟩
  rw [List.get_eq_getElem]
  exact hgeti

/-- The output of the topological sort does not depend on the enumeration
order of the in-degree map: any two permutations of the key list give the
same result, because the seed queue is sorted before processing. -/
theorem topological_sort_seed_perm (g : LogicalGraph) (e1 e2 : List String)
    (h1 : List.Perm e1 (degKeys g)) (h2 : List.Perm e2 (degKeys g)) :
    topological_sort_seed g e1 = topological_sort_seed g e2 := by
  unfold topological_sort_seed
  have hp : List.Perm (e1.filter (fun v => inDeg0 g v = 0))
      (e2.filter (fun v => inDeg0 g v = 0)) :=
    (h1.trans h2.symm).filter _
  have hseed : List.insertionSort strOrd (e1.filter (fun v => inDeg0 g v = 0)) =
      List.insertionSort strOrd (e2.filter (fun v => inDeg0 g v = 0)) := by
    exact List.eq_of_perm_of_sorted
      (((List.perm_insertionSort _ _).trans hp).trans (List.perm_insertionSort _ _).symm)
      (List.sorted_insertionSort strOrd _) (List.sorted_insertionSort strOrd _)
  rw [hseed]

/-- A small helper to build propositions for concrete test graphs. -/
def sampleProp (i : String) : Proposition :=
  ⟨i, "s " ++ i, "e " ++ i, "claim", "medium", false, false, false⟩

/-- A small helper to build relationships for concrete test graphs. -/
def sampleRel (i f t k : String) : Relationship :=
  ⟨i, f, t, k, "strong", none⟩

/-- Concrete graph: a supported chain A → B → C. -/
def gChain : LogicalGraph :=
  ⟨[sampleProp "A", sampleProp "B", sampleProp "C"],
   [sampleRel "r1" "A" "B" "supports", sampleRel "r2" "B" "C" "supports"]⟩

/-- Concrete graph: a two-node cycle A ↔ B with an acyclic successor C. -/
def gCycTail : LogicalGraph :=
  ⟨[sampleProp "A", sampleProp "B", sampleProp "C"],
   [sampleRel "r1" "A" "B" "supports", sampleRel "r2" "B" "A" "supports",
    sampleRel "r3" "B" "C" "supports"]⟩

theorem gCycTail_C_not_onCycle : ¬ OnCycle gCycTail "C" := by
  intro h
  obtain ⟨b, hb, -⟩ := Relation.TransGen.head'_iff.mp h
  obtain ⟨r, hr, hfrom, -⟩ := hb
  have hdr : depRels gCycTail = [sampleRel "r1" "A" "B" "supports",
      sampleRel "r2" "B" "A" "supports", sampleRel "r3" "B" "C" "supports"] := rfl
  rw [hdr] at hr
  fin_cases hr <;> simp [sampleRel] at hfrom

theorem gCycTail_A_onCycle : OnCycle gCycTail "A" := by
  have h1 : depEdge gCycTail "A" "B" :=
    ⟨sampleRel "r1" "A" "B" "supports", by decide, rfl, rfl⟩
  have h2 : depEdge gCycTail "B" "A" :=
    ⟨sampleRel "r2" "B" "A" "supports", by decide, rfl, rfl⟩
  exact Relation.TransGen.head h1 (Relation.TransGen.single h2)

/-- C2: for every input graph, `topological_sort` contains no node that
participates in any dependency cycle, and for every dependency edge
`u → v` (kind in supports / depends_on / assumes) whose endpoints both
appear in the output, `u` precedes `v`. -/
theorem claim_C2_topo_order (g : LogicalGraph) :
    (∀ v ∈ topological_sort g, ¬ OnCycle g v) ∧
    (∀ r ∈ g.relationships, is_dependency_edge r.rel_type = true →
      r.from_id ∈ topological_sort g → r.to_id ∈ topological_sort g →
      ∃ i j, ∃ hi : i < (topological_sort g).length,
        ∃ hj : j < (topological_sort g).length,
        i < j ∧ (topological_sort g).get ⟨i, hi⟩ = r.from_id ∧
          (topological_sort g).get ⟨j, hj⟩ = r.to_id) := by
  obtain ⟨-, hclosed⟩ := topological_sort_props g
  refine ⟨ResultClosed.not_onCycle g _ hclosed, ?_⟩
  intro r hr hdep hfrom hto
  have hrd : r ∈ depRels g := List.mem_filter.mpr ⟨hr, hdep⟩
  exact ResultClosed.precedes g _ hclosed r hrd hto

/-- Witness for C2 on the chain `A → B → C`: no listed node is cyclic and
the edge `A → B` is ordered. -/
theorem claim_C2_topo_order_witness :
    (¬ OnCycle gChain "A") ∧
    (∃ i j, ∃ hi : i < (topological_sort gChain).length,
      ∃ hj : j < (topological_sort gChain).length,
      i < j ∧ (topological_sort gChain).get ⟨i, hi⟩ = "A" ∧
        (topological_sort gChain).get ⟨j, hj⟩ = "B") := by
  constructor
  · exact (claim_C2_topo_order gChain).1 "A" (by decide)
  · exact (claim_C2_topo_order gChain).2 (sampleRel "r1" "A" "B" "supports")
      (by decide) (by decide) (by decide) (by decide)

/-- C10: a proposition that lies on no dependency cycle but is reachable
from some cycle node via dependency edges is also omitted from the
topological order, so the output can be a strict subset of the acyclic
propositions.  The second conjunct exhibits this strictness on the concrete
graph `A ↔ B → C`: `C` is an acyclic listed proposition, yet the output is
empty. -/
theorem claim_C10_cycle_reachable_omitted :
    (∀ (g : LogicalGraph) (u v : String), OnCycle g u →
      Relation.ReflTransGen (depEdge g) u v → ¬ OnCycle g v →
      v ∉ topological_sort g) ∧
    (topological_sort gCycTail = [] ∧ "C" ∈ propIds gCycTail ∧ ¬ OnCycle gCycTail "C") := by
  constructor
  · intro g u v hu hreach _
    obtain ⟨-, hclosed⟩ := topological_sort_props g
    have hunot : u ∉ topological_sort g := fun hmem =>
      ResultClosed.not_onCycle g _ hclosed u hmem hu
    exact ResultClosed.reach_not_mem g _ hclosed u v hreach hunot
  · exact ⟨by decide, by decide, gCycTail_C_not_onCycle⟩

/-- Witness for C10: `C` is reachable from the cycle node `A` in
`A ↔ B → C` and is indeed omitted from the topological order. -/
theorem claim_C10_cycle_reachable_omitted_witness :
    "C" ∉ topological_sort gCycTail := by
  have hreach : Relation.ReflTransGen (depEdge gCycTail) "A" "C" := by
    have h1 : depEdge gCycTail "A" "B" :=
      ⟨sampleRel "r1" "A" "B" "supports", by decide, rfl, rfl⟩
    have h2 : depEdge gCycTail "B" "C" :=
      ⟨sampleRel "r3" "B" "C" "supports", by decide, rfl, rfl⟩
    exact Relation.ReflTransGen.head h1 (Relation.ReflTransGen.single h2)
  exact claim_C10_cycle_reachable_omitted.1 gCycTail "A" "C" gCycTail_A_onCycle
    hreach gCycTail_C_not_onCycle

/-! ## String utilities

Models of the `str` operations used by the passes.  Rust byte positions are
modelled by character positions (the two agree on the ASCII inputs the
keyword tables target). -/

/-- Does the first list start with the second? -/
def listStartsWith : List Char → List Char → Bool
  | _, [] => true
  | [], _ :: _ => false
  | a :: as, b :: bs => a = b && listStartsWith as bs

/-- Rust `str::contains` for plain substrings. -/
def listContainsSub : List Char → List Char → Bool
  | [], pat => pat.isEmpty
  | h :: t, pat => listStartsWith (h :: t) pat || listContainsSub t pat

/-- Rust `str::contains` on strings. -/
def containsSub (hay pat : String) : Bool :=
  listContainsSub hay.data pat.data

/-- Rust `str::find`: character position of the first occurrence. -/
def firstOccPos : List Char → List Char → Option Nat
  | [], pat => if pat.isEmpty then some 0 else none
  | h :: t, pat =>
    if listStartsWith (h :: t) pat then some 0
    else (firstOccPos t pat).map (· + 1)

/-- Whitespace tokenizer: maximal nonempty runs of non-whitespace. -/
def wsTokensAux : List Char → List Char → List (List Char)
  | [], acc => if acc.isEmpty then [] else [acc.reverse]
  | c :: t, acc =>
    if c.isWhitespace then
      if acc.isEmpty then wsTokensAux t [] else acc.reverse :: wsTokensAux t []
    else wsTokensAux t (c :: acc)

/-- Rust `str::split_whitespace`: whitespace-separated tokens, no empties. -/
def splitWs (s : String) : List String :=
  (wsTokensAux s.data []).map List.asString

/-- Drop matching characters from the end of a list. -/
def dropWhileEnd (p : Char → Bool) (l : List Char) : List Char :=
  (l.reverse.dropWhile p).reverse

/-- Rust `str::trim_matches` with a character predicate: strip matching
characters from both ends (interior characters are untouched). -/
def trimWhile (p : Char → Bool) (l : List Char) : List Char :=
  dropWhileEnd p (l.dropWhile p)

/-- Rust `to_lowercase`, restricted to ASCII (see the module comment). -/
def strLower (s : String) : String :=
  (s.data.map Char.toLower).asString

/-- Rust `str::trim`. -/
def strTrim (s : String) : String :=
  (trimWhile Char.isWhitespace s.data).asString

/-- Numeric value of a digit list (most significant first). -/
def digitsNat (l : List Char) : Nat :=
  l.foldl (fun n c => n * 10 + (c.toNat - 48)) 0

/-- Mantissa of a decimal literal: `digits`, `digits.digits`, `digits.` or
`.digits` (at least one digit overall). -/
def parseMantissa (m : List Char) : Option ℚ :=
  match m.splitOn '.' with
  | [ip] => if !ip.isEmpty && ip.all Char.isDigit then some (digitsNat ip) else none
  | [ip, fp] =>
    if (!ip.isEmpty || !fp.isEmpty) && ip.all Char.isDigit && fp.all Char.isDigit then
      some ((digitsNat ip : ℚ) + (digitsNat fp : ℚ) / (10 : ℚ) ^ fp.length)
    else none
  | _ => none

/-- Optional sign followed by a nonempty digit string (a float exponent). -/
def parseExpPart : List Char → Option ℤ
  | '+' :: ds => if !ds.isEmpty && ds.all Char.isDigit then some (digitsNat ds) else none
  | '-' :: ds => if !ds.isEmpty && ds.all Char.isDigit then some (-(digitsNat ds : ℤ)) else none
  | ds => if !ds.isEmpty && ds.all Char.isDigit then some (digitsNat ds) else none

/-- Model of Rust `str::parse::<f64>()` on the character shapes that can
reach it here (unsigned decimal literals with an optional exponent),
evaluated exactly in `ℚ`. -/
def parseDec (l : List Char) : Option ℚ :=
  match (l.map (fun c => if c = 'E' then 'e' else c)).splitOn 'e' with
  | [m] => parseMantissa m
  | [m, ex] =>
    match parseMantissa m, parseExpPart ex with
    | some v, some e => some (v * (10 : ℚ) ^ e)
    | _, _ => none
  | _ => none

/-- `parseDec` on a string. -/
def parseDecStr (s : String) : Option ℚ :=
  parseDec s.data

/-! ## Output record types (types.rs) -/

/-- types.rs `Contradiction` (scores in `ℚ`, see the module comment). -/
structure Contradiction where
  id : String
  proposition_ids : List String
  contradiction_type : String
  severity : String
  formal_proof : String
  human_explanation : String
  deriving Repr, DecidableEq

/-- types.rs `Fallacy`. -/
structure Fallacy where
  id : String
  name : String
  description : String
  affected_node_ids : List String
  pattern_type : String
  deriving Repr, DecidableEq

/-- types.rs `CognitiveBias`. -/
structure CognitiveBias where
  id : String
  name : String
  kahneman_reference : String
  description : String
  affected_node_ids : List String
  severity : String
  system : Nat
  deriving Repr, DecidableEq

/-- types.rs `ArgumentScore`. -/
structure ArgumentScore where
  proposition_id : String
  score : ℚ
  evidence_paths : Nat
  contradiction_count : Nat
  vulnerable_assumptions : Nat
  deriving Repr, DecidableEq

/-- types.rs `AnalysisResult`. -/
structure AnalysisResult where
  contradictions : List Contradiction
  fallacies : List Fallacy
  biases : List CognitiveBias
  argument_scores : List ArgumentScore
  cycles : List (List String)
  topological_order : List String
  deriving Repr, DecidableEq

/-! ## Contradiction pass (sat_solver.rs) -/

/-- Deterministic display of a rational, standing in for Rust's `f64`
display in explanation strings (never inspected by any claim). -/
def ratStr (q : ℚ) : String :=
  toString q

/-- sat_solver.rs `extract_duration`, scanning backwards from a unit for the
last number token, with the operator read from the adjacent token or a
leading `>` / `<` on the number token itself. -/
def opFromPart (part : String) : String :=
  match part.data with
  | '>' :: _ => ">"
  | '<' :: _ => "<"
  | _ => "="

/-- The reversed-token scan of `extract_duration`. -/
def durScan (multiplier : ℚ) : List String → Option (String × ℚ)
  | [] => none
  | part :: rest =>
    let trimmed := (part.data.filter (fun c => c.isDigit || c = '.')).asString
    match parseDec trimmed.data with
    | some val =>
      let op :=
        match rest with
        | next :: _ =>
          if next = ">" ∨ next = ">=" then ">"
          else if next = "<" ∨ next = "<=" then "<"
          else opFromPart part
        | [] => opFromPart part
      some (op, val * multiplier)
    | none => durScan multiplier rest

/-- One unit pattern of `extract_duration`. -/
def durAtUnit (text : String) (unit : String) (multiplier : ℚ) : Option (String × ℚ) :=
  match firstOccPos text.data unit.data with
  | none => none
  | some pos =>
    let before := dropWhileEnd Char.isWhitespace (text.data.take pos)
    durScan multiplier ((splitWs before.asString).reverse)

/-- sat_solver.rs `extract_duration`. -/
def extract_duration (text : String) : Option (String × ℚ) :=
  match durAtUnit text "month" 1 with
  | some r => some r
  | none =>
    match durAtUnit text "year" 12 with
    | some r => some r
    | none => durAtUnit text "week" (1/4)

/-- One arrow pattern of `parse_implication`: `none` both when the arrow is
absent and when either side is empty after trimming (the caller then falls
through to the next pattern). -/
def tryArrow (expr : List Char) (arrow : List Char) : Option (String × String) :=
  match firstOccPos expr arrow with
  | none => none
  | some pos =>
    let lhs := trimWhile Char.isWhitespace (expr.take pos)
    let rhs := trimWhile Char.isWhitespace (expr.drop (pos + arrow.length))
    if !lhs.isEmpty && !rhs.isEmpty then some (lhs.asString, rhs.asString) else none

/-- sat_solver.rs `parse_implication`: split on the first `→`, else `->`. -/
def parse_implication (expr : String) : Option (String × String) :=
  match tryArrow expr.data ['→'] with
  | some r => some r
  | none => tryArrow expr.data ['-', '>']

/-- sat_solver.rs `extract_numeric_value`: strip commas, then scan
whitespace tokens; each token is trimmed at both ends (only!) of characters
outside `[0-9.KkMm]`, a trailing `K`/`M` selects the multiplier, and the
first token whose remainder parses is returned. -/
def extract_numeric_value (text : String) : Option ℚ :=
  let noComma := (text.data.filter (fun c => !(c = ','))).asString
  (splitWs noComma).findSome? (fun word =>
    let cleaned := trimWhile
      (fun c => !(c.isDigit || c = '.' || c = 'K' || c = 'k' || c = 'M' || c = 'm'))
      word.data
    if cleaned.isEmpty then none
    else
      let lastc := cleaned.getLast?
      let multiplier : ℚ :=
        if lastc = some 'K' ∨ lastc = some 'k' then 1000
        else if lastc = some 'M' ∨ lastc = some 'm' then 1000000
        else 1
      let num_part := dropWhileEnd (fun c => c = 'K' || c = 'k' || c = 'M' || c = 'm') cleaned
      match parseDec num_part with
      | some val => some (val * multiplier)
      | none => none)

/-- sat_solver.rs `detect_temporal_conflict`. -/
def detect_temporal_conflict (a b : Proposition) : Option String :=
  let a_expr := strLower a.formal_expression
  let b_expr := strLower b.formal_expression
  let a_stmt := strLower a.statement
  let b_stmt := strLower b.statement
  let a_duration :=
    match extract_duration a_expr with
    | some r => some r
    | none => extract_duration a_stmt
  let b_duration :=
    match extract_duration b_expr with
    | some r => some r
    | none => extract_duration b_stmt
  let durCase : Option String :=
    match a_duration, b_duration with
    | some (a_op, a_val), some (b_op, b_val) =>
      if a_op = ">" ∧ b_op = "<" ∧ a_val > b_val then
        some ("Temporal conflict: \"" ++ a.statement ++
          "\" implies a duration of more than " ++ ratStr a_val ++
          " months, but \"" ++ b.statement ++ "\" requires completion within " ++
          ratStr b_val ++ " months. These time constraints are incompatible.")
      else if b_op = ">" ∧ a_op = "<" ∧ b_val > a_val then
        some ("Temporal conflict: \"" ++ b.statement ++
          "\" implies a duration of more than " ++ ratStr b_val ++
          " months, but \"" ++ a.statement ++ "\" requires completion within " ++
          ratStr a_val ++ " months. These time constraints are incompatible.")
      else none
    | _, _ => none
  match durCase with
  | some msg => some msg
  | none =>
    let a_urgent := containsSub a_stmt "now" || containsSub a_stmt "immediately" ||
      containsSub a_stmt "should"
    let b_urgent := containsSub b_stmt "now" || containsSub b_stmt "immediately" ||
      containsSub b_stmt "should"
    let a_long := containsSub a_stmt ">12" || containsSub a_stmt "over a year" ||
      containsSub a_stmt "> 12"
    let b_long := containsSub b_stmt ">12" || containsSub b_stmt "over a year" ||
      containsSub b_stmt "> 12"
    if (a_urgent && b_long) || (b_urgent && a_long) then
      some ("Temporal conflict: \"" ++
        (if a_urgent then a.statement else b.statement) ++
        "\" implies urgency, but \"" ++
        (if a_long then a.statement else b.statement) ++
        "\" indicates a lengthy timeline. The urgency and the required duration are incompatible.")
    else none

/-- Strip all leading `¬` characters, then trim
(Rust `trim_start_matches` composed with `trim`). -/
def stripNeg (s : String) : String :=
  strTrim (s.data.dropWhile (fun c => c = '¬')).asString

/-- sat_solver.rs `detect_logical_conflict`. -/
def detect_logical_conflict (a b : Proposition) : Option String :=
  match parse_implication a.formal_expression, parse_implication b.formal_expression with
  | some (a_lhs, a_rhs), some (b_lhs, b_rhs) =>
    let a_lhs_t := strTrim a_lhs
    let b_lhs_t := strTrim b_lhs
    let a_rhs_t := strTrim a_rhs
    let b_rhs_t := strTrim b_rhs
    if a_lhs_t = b_lhs_t then
      let a_negated := "¬" ++ a_rhs_t
      let b_negated := "¬" ++ b_rhs_t
      let a_stripped := stripNeg a_rhs_t
      let b_stripped := stripNeg b_rhs_t
      if a_rhs_t = b_negated ∨ b_rhs_t = a_negated ∨
          (a_stripped = b_stripped ∧ a_rhs_t ≠ b_rhs_t) then
        some ("Logical conflict: \"" ++ a.statement ++ "\" implies " ++ a_lhs_t ++
          " → " ++ a_rhs_t ++ ", but \"" ++ b.statement ++ "\" implies " ++ b_lhs_t ++
          " → " ++ b_rhs_t ++
          ". Given the same condition (" ++ a_lhs_t ++ "), these lead to contradictory conclusions.")
      else none
    else none
  | _, _ => none

/-- All ordered pairs `(l[i], l[j])` with `i < j`, in the iteration order of
the nested loops of sat_solver.rs. -/
def listPairs {α : Type} : List α → List (α × α)
  | [] => []
  | x :: rest => rest.map (fun y => (x, y)) ++ listPairs rest

/-- Strategy 1 of `detect_contradictions`: explicit `contradicts` edges. -/
def strat1 (g : LogicalGraph) : Nat → List Relationship → Nat × List Contradiction
  | c, [] => (c, [])
  | c, rel :: rest =>
    if rel.rel_type = "contradicts" then
      match g.get_proposition rel.from_id, g.get_proposition rel.to_id with
      | some from_prop, some to_prop =>
        let c1 := c + 1
        let severity := if from_prop.is_load_bearing || to_prop.is_load_bearing
          then "critical" else "major"
        let item : Contradiction :=
          { id := "contradiction-explicit-" ++ toString c1
            proposition_ids := [rel.from_id, rel.to_id]
            contradiction_type := "logical"
            severity := severity
            formal_proof := from_prop.formal_expression ++ " ∧ " ++
              to_prop.formal_expression ++ " → ⊥"
            human_explanation := "\"" ++ from_prop.statement ++
              "\" directly contradicts \"" ++ to_prop.statement ++
              "\". These two propositions cannot both be true simultaneously." }
        let rec_result := strat1 g c1 rest
        (rec_result.1, item :: rec_result.2)
      | _, _ => strat1 g c rest
    else strat1 g c rest

/-- The time-keyword filter of strategy 2. -/
def timeProps (g : LogicalGraph) : List Proposition :=
  g.propositions.filter (fun p =>
    ["month", "year", "week", "day", "quarter", "time", "duration", "deadline",
      "runway", "period"].any (fun kw =>
        containsSub (strLower p.formal_expression) kw || containsSub (strLower p.statement) kw))

/-- Strategy 2 of `detect_contradictions`: temporal conflicts over pairs of
time-related propositions. -/
def strat2 (c0 : Nat) : List (Proposition × Proposition) → Nat × List Contradiction
  | [] => (c0, [])
  | (a, b) :: rest =>
    match detect_temporal_conflict a b with
    | some explanation =>
      let c1 := c0 + 1
      let severity := if a.is_load_bearing || b.is_load_bearing then "critical" else "major"
      let item : Contradiction :=
        { id := "contradiction-temporal-" ++ toString c1
          proposition_ids := [a.id, b.id]
          contradiction_type := "temporal"
          severity := severity
          formal_proof := a.formal_expression ++ " ∧ " ++ b.formal_expression ++
            " → temporal_conflict"
          human_explanation := explanation }
      let rec_result := strat2 c1 rest
      (rec_result.1, item :: rec_result.2)
    | none => strat2 c0 rest

/-- Strategy 3 of `detect_contradictions`: implication conflicts over pairs
of propositions (severity needs both endpoints load-bearing). -/
def strat3 (c0 : Nat) : List (Proposition × Proposition) → Nat × List Contradiction
  | [] => (c0, [])
  | (a, b) :: rest =>
    match detect_logical_conflict a b with
    | some explanation =>
      let c1 := c0 + 1
      let severity := if a.is_load_bearing && b.is_load_bearing then "critical" else "major"
      let item : Contradiction :=
        { id := "contradiction-logical-" ++ toString c1
          proposition_ids := [a.id, b.id]
          contradiction_type := "logical"
          severity := severity
          formal_proof := a.formal_expression ++ " ∧ " ++ b.formal_expression ++ " → ⊥"
          human_explanation := explanation }
      let rec_result := strat3 c1 rest
      (rec_result.1, item :: rec_result.2)
    | none => strat3 c0 rest

/-- The numeric propositions of strategy 4, with their extracted values. -/
def numericProps (g : LogicalGraph) : List (Proposition × ℚ) :=
  g.propositions.filterMap (fun p =>
    (match extract_numeric_value p.formal_expression with
      | some v => some v
      | none => extract_numeric_value p.statement).map (fun v => (p, v)))

/-- Strategy 4 of `detect_contradictions`
(sat_solver.rs `detect_resource_contradictions`). -/
def strat4 (g : LogicalGraph) (nums : List (Proposition × ℚ)) :
    Nat → List Proposition → Nat × List Contradiction
  | c, [] => (c, [])
  | c, p :: rest =>
    if p.prop_type = "assumption" ∧
        (containsSub p.formal_expression "≥" || containsSub p.formal_expression ">=" ||
          containsSub (strLower p.statement) "sufficient") then
      let related_ids := (g.get_relationships_from p.id).map (·.to_id) ++
        (g.get_relationships_to p.id).map (·.from_id)
      let related_nums := nums.filter (fun q => q.1.id ∈ related_ids)
      if related_nums.length ≥ 2 then
        let c1 := c + 1
        let item : Contradiction :=
          { id := "contradiction-resource-" ++ toString c1
            proposition_ids := p.id :: related_nums.map (·.1.id)
            contradiction_type := "empirical"
            severity := if p.is_load_bearing then "critical" else "major"
            formal_proof := p.formal_expression ++
              " — requires verification against numeric constraints"
            human_explanation := "The assumption \"" ++ p.statement ++
              "\" may not hold when checked against the actual numbers: " ++
              String.intercalate ", " (related_nums.map (fun q =>
                "\"" ++ q.1.statement ++ "\" (" ++ ratStr q.2 ++ ")")) ++
              ". Verify that the math supports this claim." }
        let rec_result := strat4 g nums c1 rest
        (rec_result.1, item :: rec_result.2)
      else strat4 g nums c rest
    else strat4 g nums c rest

/-- sat_solver.rs `detect_contradictions`: the four strategies in order,
threading one shared counter. -/
def detect_contradictions (g : LogicalGraph) : List Contradiction :=
  let s1 := strat1 g 0 g.relationships
  let s2 := strat2 s1.1 (listPairs (timeProps g))
  let s3 := strat3 s2.1 (listPairs g.propositions)
  let s4 := strat4 g (numericProps g) s3.1 g.propositions
  s1.2 ++ s2.2 ++ s3.2 ++ s4.2

/-- Identifiers of a range-shaped emission: positions `c+1, c+2, ...`. -/
def idRange (pre : String) (c n : Nat) : List String :=
  (List.range n).map (fun j => pre ++ toString (c + j + 1))

theorem idRange_succ (pre : String) (c n : Nat) :
    idRange pre c (n + 1) = (pre ++ toString (c + 1)) :: idRange pre (c + 1) n := by
  unfold idRange
  rw [List.range_succ_eq_map]
  simp only [List.map_cons, List.map_map]
  refine congrArg₂ List.cons (by simp) ?_
  apply List.map_congr_left
  intro j _
  simp only [Function.comp]
  have : c + (j + 1) + 1 = c + 1 + j + 1 := by omega
  rw [this]

/-- Strategy 1 threads the shared counter: one increment per record, and the
identifiers are `contradiction-explicit-<c+1>, <c+2>, ...`. -/
theorem strat1_spec (g : LogicalGraph) : ∀ (l : List Relationship) (c : Nat),
    (strat1 g c l).1 = c + (strat1 g c l).2.length ∧
    (strat1 g c l).2.map (·.id) = idRange "contradiction-explicit-" c (strat1 g c l).2.length := by
  intro l
  induction l with
  | nil => intro c; simp [strat1, idRange]
  | cons rel rest ih =>
    intro c
    by_cases hc : rel.rel_type = "contradicts"
    · cases hf : g.get_proposition rel.from_id with
      | none => simpa only [strat1, if_pos hc, hf] using ih c
      | some fp =>
        cases ht : g.get_proposition rel.to_id with
        | none => simpa only [strat1, if_pos hc, hf, ht] using ih c
        | some tp =>
          obtain ⟨ih1, ih2⟩ := ih (c + 1)
          simp only [strat1, if_pos hc, hf, ht, List.map_cons, List.length_cons]
          refine ⟨by omega, ?_⟩
          rw [idRange_succ, ih2]
    · simpa only [strat1, if_neg hc] using ih c

/-- Strategy 2 threads the shared counter
(`contradiction-temporal-<c+1>, ...`). -/
theorem strat2_spec : ∀ (l : List (Proposition × Proposition)) (c : Nat),
    (strat2 c l).1 = c + (strat2 c l).2.length ∧
    (strat2 c l).2.map (·.id) = idRange "contradiction-temporal-" c (strat2 c l).2.length := by
  intro l
  induction l with
  | nil => intro c; simp [strat2, idRange]
  | cons ab rest ih =>
    intro c
    obtain ⟨a, b⟩ := ab
    cases hd : detect_temporal_conflict a b with
    | none => simpa only [strat2, hd] using ih c
    | some expl =>
      obtain ⟨ih1, ih2⟩ := ih (c + 1)
      simp only [strat2, hd, List.map_cons, List.length_cons]
      refine ⟨by omega, ?_⟩
      rw [idRange_succ, ih2]

/-- Strategy 3 threads the shared counter
(`contradiction-logical-<c+1>, ...`). -/
theorem strat3_spec : ∀ (l : List (Proposition × Proposition)) (c : Nat),
    (strat3 c l).1 = c + (strat3 c l).2.length ∧
    (strat3 c l).2.map (·.id) = idRange "contradiction-logical-" c (strat3 c l).2.length := by
  intro l
  induction l with
  | nil => intro c; simp [strat3, idRange]
  | cons ab rest ih =>
    intro c
    obtain ⟨a, b⟩ := ab
    cases hd : detect_logical_conflict a b with
    | none => simpa only [strat3, hd] using ih c
    | some expl =>
      obtain ⟨ih1, ih2⟩ := ih (c + 1)
      simp only [strat3, hd, List.map_cons, List.length_cons]
      refine ⟨by omega, ?_⟩
      rw [idRange_succ, ih2]

/-- Strategy 4 threads the shared counter
(`contradiction-resource-<c+1>, ...`). -/
theorem strat4_spec (g : LogicalGraph) (nums : List (Proposition × ℚ)) :
    ∀ (l : List Proposition) (c : Nat),
    (strat4 g nums c l).1 = c + (strat4 g nums c l).2.length ∧
    (strat4 g nums c l).2.map (·.id) =
      idRange "contradiction-resource-" c (strat4 g nums c l).2.length := by
  intro l
  induction l with
  | nil => intro c; simp [strat4, idRange]
  | cons p rest ih =>
    intro c
    by_cases hg : p.prop_type = "assumption" ∧
        (containsSub p.formal_expression "≥" || containsSub p.formal_expression ">=" ||
          containsSub (strLower p.statement) "sufficient") = true
    · by_cases hn : (nums.filter (fun q => q.1.id ∈
          ((g.get_relationships_from p.id).map (·.to_id) ++
            (g.get_relationships_to p.id).map (·.from_id)))).length ≥ 2
      · obtain ⟨ih1, ih2⟩ := ih (c + 1)
        simp only [strat4, if_pos hg, if_pos hn, List.map_cons, List.length_cons]
        refine ⟨by omega, ?_⟩
        rw [idRange_succ, ih2]
      · simpa only [strat4, if_pos hg, if_neg hn] using ih c
    · simpa only [strat4, if_neg hg] using ih c

theorem idRange_length (pre : String) (c n : Nat) : (idRange pre c n).length = n := by
  simp [idRange]

theorem idRange_getElem (pre : String) (c n i : Nat) (h : i < n) :
    (idRange pre c n)[i]? = some (pre ++ toString (c + i + 1)) := by
  unfold idRange
  rw [List.getElem?_map, List.getElem?_range h]
  rfl

/-- The identifier stream of the whole contradiction pass: four blocks, one
shared counter running across them. -/
theorem detect_contradictions_ids (g : LogicalGraph) :
    ∃ n1 n2 n3 n4 : Nat,
      (detect_contradictions g).map (·.id) =
        idRange "contradiction-explicit-" 0 n1 ++
        idRange "contradiction-temporal-" n1 n2 ++
        idRange "contradiction-logical-" (n1 + n2) n3 ++
        idRange "contradiction-resource-" (n1 + n2 + n3) n4 := by
  set S1 := strat1 g 0 g.relationships with hS1
  set S2 := strat2 S1.1 (listPairs (timeProps g)) with hS2
  set S3 := strat3 S2.1 (listPairs g.propositions) with hS3
  set S4 := strat4 g (numericProps g) S3.1 g.propositions with hS4
  obtain ⟨h11, h12⟩ := strat1_spec g g.relationships 0
  obtain ⟨h21, h22⟩ := strat2_spec (listPairs (timeProps g)) S1.1
  obtain ⟨h31, h32⟩ := strat3_spec (listPairs g.propositions) S2.1
  obtain ⟨h41, h42⟩ := strat4_spec g (numericProps g) g.propositions S3.1
  rw [← hS1] at h11 h12
  rw [← hS2] at h21 h22
  rw [← hS3] at h31 h32
  rw [← hS4] at h41 h42
  refine ⟨S1.2.length, S2.2.length, S3.2.length, S4.2.length, ?_⟩
  have hd : detect_contradictions g = S1.2 ++ S2.2 ++ S3.2 ++ S4.2 := rfl
  have e1 : S1.1 = S1.2.length := by omega
  have e2 : S2.1 = S1.2.length + S2.2.length := by omega
  have e3 : S3.1 = S1.2.length + S2.2.length + S3.2.length := by omega
  rw [hd]
  simp only [List.map_append]
  rw [h12, h22, h32, h42, e1, e2, e3]

theorem append4_getElem {α : Type} (A B C D : List α) (i : Nat) :
    (A ++ B ++ C ++ D)[i]? =
      if i < A.length then A[i]?
      else if i < A.length + B.length then B[i - A.length]?
      else if i < A.length + B.length + C.length then C[i - (A.length + B.length)]?
      else D[i - (A.length + B.length + C.length)]? := by
  by_cases h1 : i < A.length
  · rw [if_pos h1,
      List.getElem?_append_left (show i < ((A ++ B) ++ C).length by
        simp only [List.length_append]; omega),
      List.getElem?_append_left (show i < (A ++ B).length by
        simp only [List.length_append]; omega),
      List.getElem?_append_left h1]
  · rw [if_neg h1]
    by_cases h2 : i < A.length + B.length
    · rw [if_pos h2,
        List.getElem?_append_left (show i < ((A ++ B) ++ C).length by
          simp only [List.length_append]; omega),
        List.getElem?_append_left (show i < (A ++ B).length by
          simp only [List.length_append]; omega),
        List.getElem?_append_right (show A.length ≤ i by omega)]
    · rw [if_neg h2]
      by_cases h3 : i < A.length + B.length + C.length
      · rw [if_pos h3,
          List.getElem?_append_left (show i < ((A ++ B) ++ C).length by
            simp only [List.length_append]; omega),
          List.getElem?_append_right (show (A ++ B).length ≤ i by
            simp only [List.length_append]; omega)]
        simp only [List.length_append]
      · rw [if_neg h3,
          List.getElem?_append_right (show ((A ++ B) ++ C).length ≤ i by
            simp only [List.length_append]; omega)]
        simp only [List.length_append]

/-- C7 (amended): the contradiction pass runs its four sub-strategies in
order, but the numeric suffix comes from one counter shared by all four
(pass-local, as §6 of the spec states), not from per-strategy counters: the
`i`-th emitted contradiction (0-based) has identifier
`contradiction-<tag>-<i+1>` for its strategy's tag. -/
theorem claim_C7_contradiction_ids (g : LogicalGraph) :
    ∀ i, i < (detect_contradictions g).length →
      ∃ tag ∈ (["explicit", "temporal", "logical", "resource"] : List String),
        ((detect_contradictions g).map (·.id))[i]? =
          some ("contradiction-" ++ tag ++ "-" ++ toString (i + 1)) := by
  intro i hi
  obtain ⟨n1, n2, n3, n4, hmap⟩ := detect_contradictions_ids g
  have hlen : (detect_contradictions g).length = n1 + n2 + n3 + n4 := by
    have hl := congrArg List.length hmap
    simp only [List.length_map, List.length_append, idRange_length] at hl
    omega
  rw [hlen] at hi
  rw [hmap, append4_getElem]
  simp only [idRange_length]
  rcases Nat.lt_or_ge i n1 with h1 | h1
  · refine ⟨"explicit", by simp, ?_⟩
    rw [if_pos h1, idRange_getElem _ _ _ _ h1, Nat.zero_add]
    rfl
  · rcases Nat.lt_or_ge i (n1 + n2) with h2 | h2
    · refine ⟨"temporal", by simp, ?_⟩
      rw [if_neg (by omega), if_pos h2, idRange_getElem _ _ _ _ (by omega),
        show n1 + (i - n1) + 1 = i + 1 by omega]
      rfl
    · rcases Nat.lt_or_ge i (n1 + n2 + n3) with h3 | h3
      · refine ⟨"logical", by simp, ?_⟩
        rw [if_neg (by omega), if_neg (by omega), if_pos h3,
          idRange_getElem _ _ _ _ (by omega),
          show n1 + n2 + (i - (n1 + n2)) + 1 = i + 1 by omega]
        rfl
      · refine ⟨"resource", by simp, ?_⟩
        rw [if_neg (by omega), if_neg (by omega), if_neg (by omega),
          idRange_getElem _ _ _ _ (by omega),
          show n1 + n2 + n3 + (i - (n1 + n2 + n3)) + 1 = i + 1 by omega]
        rfl

/-- Concrete graph for the contradiction-counter counterexample: one
explicit `contradicts` edge plus one implication conflict
(`X → Y` versus `X → ¬Y`). -/
def gCounter : LogicalGraph :=
  ⟨[⟨"p1", "s1", "e1", "claim", "high", false, true, false⟩,
    ⟨"p2", "s2", "e2", "claim", "high", false, true, false⟩,
    ⟨"p3", "s3", "X → Y", "claim", "high", false, true, false⟩,
    ⟨"p4", "s4", "X → ¬Y", "claim", "high", false, true, false⟩],
   [⟨"r1", "p1", "p2", "contradicts", "strong", none⟩]⟩

/-- Counterexample to C7 as stated: on `gCounter` the explicit strategy
emits one record and the logical strategy then emits its first record with
identifier `contradiction-logical-2` — not `contradiction-logical-1` as a
per-strategy counter would give — because the counter is shared across
strategies. -/
theorem claim_C7_counterexample :
    (detect_contradictions gCounter).map (·.id) =
      ["contradiction-explicit-1", "contradiction-logical-2"] ∧
    "contradiction-logical-1" ∉ (detect_contradictions gCounter).map (·.id) := by
  constructor
  · rfl
  · decide

/-- Witness for the amended C7 on `gCounter`: position 1 carries the
`logical` tag and suffix 2. -/
theorem claim_C7_contradiction_ids_witness :
    ∃ tag ∈ (["explicit", "temporal", "logical", "resource"] : List String),
      ((detect_contradictions gCounter).map (·.id))[1]? =
        some ("contradiction-" ++ tag ++ "-" ++ toString (1 + 1)) :=
  claim_C7_contradiction_ids gCounter 1 (by decide)

/-- C9's description of the token step, following the spec's words: "keeps
only the characters in [0-9.KkMm] of each token" (a character *filter*),
then the suffix multiplier and the parse.  Compare `extract_numeric_value`,
which *trims* those characters from the two ends only. -/
def extract_numeric_value_spec (text : String) : Option ℚ :=
  let noComma := (text.data.filter (fun c => !(c = ','))).asString
  (splitWs noComma).findSome? (fun word =>
    let kept := word.data.filter
      (fun c => c.isDigit || c = '.' || c = 'K' || c = 'k' || c = 'M' || c = 'm')
    if kept.isEmpty then none
    else
      let lastc := kept.getLast?
      let multiplier : ℚ :=
        if lastc = some 'K' ∨ lastc = some 'k' then 1000
        else if lastc = some 'M' ∨ lastc = some 'm' then 1000000
        else 1
      let num_part := dropWhileEnd (fun c => c = 'K' || c = 'k' || c = 'M' || c = 'm') kept
      match parseDec num_part with
      | some val => some (val * multiplier)
      | none => none)

/-- Counterexample to C9 as stated: on the token `1x2` the code's
trim-based cleaning keeps the interior `x` (both ends are already in the
kept class), so the parse fails and the result is `none`; the claimed
character filter would keep `12` and return `12`. -/
theorem claim_C9_counterexample :
    extract_numeric_value "1x2" = none ∧
    extract_numeric_value_spec "1x2" = some 12 := by
  constructor
  · rfl
  · have h : extract_numeric_value_spec "1x2" = some ((digitsNat ['1', '2'] : ℚ) * 1) := rfl
    rw [h]
    have hd : digitsNat ['1', '2'] = 12 := rfl
    rw [hd]
    norm_num

/-- Modelled from the amended claim: each whitespace token of the
comma-stripped text is *trimmed at both ends* of characters outside
`[0-9.KkMm]` (interior characters are kept and make the parse fail), a
trailing `K`/`k` or `M`/`m` selects the multiplier 10³ or 10⁶, trailing
multiplier letters are removed, and the first token whose remainder parses
as a number is returned (`none` when no token parses). -/
def extract_numeric_value_amended (text : String) : Option ℚ :=
  let noComma := (text.data.filter (fun c => !(c = ','))).asString
  (splitWs noComma).findSome? (fun word =>
    let cleaned := trimWhile
      (fun c => !(c.isDigit || c = '.' || c = 'K' || c = 'k' || c = 'M' || c = 'm'))
      word.data
    if cleaned.isEmpty then none
    else
      let lastc := cleaned.getLast?
      let multiplier : ℚ :=
        if lastc = some 'K' ∨ lastc = some 'k' then 1000
        else if lastc = some 'M' ∨ lastc = some 'm' then 1000000
        else 1
      match parseDec (dropWhileEnd (fun c => c = 'K' || c = 'k' || c = 'M' || c = 'm') cleaned) with
      | some val => some (val * multiplier)
      | none => none)

/-- C9 (amended): `extract_numeric_value` behaves as the amended
description (trimming at the ends instead of filtering throughout). -/
theorem claim_C9_extract_numeric (text : String) :
    extract_numeric_value text = extract_numeric_value_amended text := rfl

/-! ## Cycle detection (graph/cycle_detection.rs)

Three-colour DFS.  The colour map (white 0 / gray 1 / black 2) is a
function with domain the proposition ids; the recursion is fuelled by the
proposition count, which bounds the depth (each nested call grays a
previously white node). -/

/-- Pointwise update of a colour map. -/
def updCol (color : String → Option Nat) (v : String) (k : Nat) :
    String → Option Nat :=
  fun w => if w = v then some k else color w

/-- cycle_detection.rs `extract_cycle_from_path`: the path suffix from the
first occurrence of `cycle_start` (empty when absent). -/
def extract_cycle_from_path (path : List String) (cycle_start : String) : List String :=
  match path.findIdx? (fun n => n = cycle_start) with
  | some idx => path.drop idx
  | none => []

/-- One neighbour step of `dfs_visit`: self-loops record `[node]`, white
neighbours recurse (through `rec`), gray neighbours close a cycle from the
current path, black neighbours are skipped. -/
def dfsStep (node : String) (path1 : List String)
    (rec : String → (String → Option Nat) → List (List String) →
      (String → Option Nat) × List (List String))
    (st : (String → Option Nat) × List (List String)) (nb : String) :
    (String → Option Nat) × List (List String) :=
  if nb = node then (st.1, st.2 ++ [[node]])
  else
    match st.1 nb with
    | some 0 => rec nb st.1 st.2
    | some 1 =>
      let cyc := extract_cycle_from_path path1 nb
      if cyc.isEmpty then st else (st.1, st.2 ++ [cyc])
    | _ => st

/-- cycle_detection.rs `dfs_visit`.  `path` is passed by value: the Rust
code pushes `node` on entry and pops on every exit, so the mutable vector
is restored around each call. -/
def dfsVisit (g : LogicalGraph) : Nat → String → (String → Option Nat) →
    List (List String) → List String → (String → Option Nat) × List (List String)
  | 0, _, color, cycles, _ => (color, cycles)
  | fuel + 1, node, color, cycles, path =>
    let st := (adjOf g node).foldl
      (dfsStep node (path ++ [node]) (fun nb c cy => dfsVisit g fuel nb c cy (path ++ [node])))
      (updCol color node 1, cycles)
    (updCol st.1 node 2, st.2)

/-- The initial colour map: every proposition id white. -/
def initColor (g : LogicalGraph) : String → Option Nat :=
  fun v => if v ∈ propIds g then some 0 else none

/-- The top-level DFS loop of `detect_cycles` (fresh path each start). -/
def dfsAll (g : LogicalGraph) : (String → Option Nat) × List (List String) :=
  (propIds g).foldl
    (fun st start =>
      if st.1 start = some 0 then
        dfsVisit g (g.propositions.length + 1) start st.1 st.2 []
      else st)
    (initColor g, [])

/-- Index of the first minimal element (Rust `min_by_key` over `enumerate`
keeps the first of equal minima). -/
def argminAux (best : Nat) (bestv : String) (cur : Nat) : List String → Nat
  | [] => best
  | x :: t =>
    if strLtB x bestv then argminAux cur x (cur + 1) t else argminAux best bestv (cur + 1) t

/-- Index of the (first) lexicographically smallest element. -/
def argminIdx : List String → Nat
  | [] => 0
  | x :: t => argminAux 0 x 1 t

/-- cycle_detection.rs `normalize_cycle`: rotate so the smallest id leads. -/
def normalize_cycle (c : List String) : List String :=
  if c.length ≤ 1 then c else c.rotate (argminIdx c)

/-- cycle_detection.rs `deduplicate_cycles`: keep the first cycle of each
normalisation class, in first-discovery order. -/
def dedupCyclesGo (seen : List (List String)) : List (List String) → List (List String)
  | [] => []
  | c :: t =>
    let n := normalize_cycle c
    if n ∈ seen then dedupCyclesGo seen t
    else c :: dedupCyclesGo (n :: seen) t

/-- cycle_detection.rs `detect_cycles`. -/
def detect_cycles (g : LogicalGraph) : List (List String) :=
  dedupCyclesGo [] (dfsAll g).2


/-! ### Soundness of the DFS cycle detector -/

/-- The colour map's domain is exactly the proposition ids. -/
def ColDomain (g : LogicalGraph) (color : String → Option Nat) : Prop :=
  ∀ v, (color v).isSome = true ↔ v ∈ propIds g

/-- The gray nodes are exactly the current DFS path. -/
def GraySet (color : String → Option Nat) (path : List String) : Prop :=
  ∀ v, color v = some 1 ↔ v ∈ path

/-- A genuine simple dependency cycle, as a sequence without trailing
repeat: nonempty, duplicate-free, consecutive dependency edges, and a
dependency edge from the last node back to the first. -/
def CycleOk (g : LogicalGraph) (c : List String) : Prop :=
  c ≠ [] ∧ c.Nodup ∧ List.Chain' (depEdge g) c ∧
    depEdge g (c.getLast?.getD "") (c.head?.getD "")

instance (g : LogicalGraph) (c : List String) : Decidable (CycleOk g c) :=
  inferInstanceAs (Decidable (c ≠ [] ∧ c.Nodup ∧ List.Chain' (depEdge g) c ∧
    depEdge g (c.getLast?.getD "") (c.head?.getD "")))

/-- All recorded cycles are genuine and mention only propositions. -/
def CyclesOk (g : LogicalGraph) (cycles : List (List String)) : Prop :=
  ∀ c ∈ cycles, CycleOk g c ∧ ∀ v ∈ c, v ∈ propIds g

theorem adjOf_mem_depEdge (g : LogicalGraph) (u v : String) (h : v ∈ adjOf g u) :
    depEdge g u v := by
  unfold adjOf at h
  rcases List.mem_map.mp h with ⟨r, hr, rfl⟩
  rcases List.mem_filter.mp hr with ⟨hmem, hfrom⟩
  exact ⟨r, hmem, of_decide_eq_true hfrom, rfl⟩

theorem getLast?_drop_of_lt {α : Type} (l : List α) (n : Nat) (h : n < l.length) :
    (l.drop n).getLast? = l.getLast? := by
  conv_rhs => rw [← List.take_append_drop n l]
  rw [List.getLast?_append]
  have hne : l.drop n ≠ [] := by
    intro he
    have := congrArg List.length he
    simp only [List.length_drop] at this
    simp at this
    omega
  cases hd : (l.drop n).getLast? with
  | none => exact absurd (List.getLast?_eq_none_iff.mp hd) hne
  | some x => rfl

theorem updCol_apply (c : String → Option Nat) (n : String) (k : Nat) (v : String) :
    updCol c n k v = if v = n then some k else c v := rfl

/-- The DFS invariant: colour domain preserved, gray set restored to the
entry path, and every recorded cycle a genuine simple dependency cycle over
proposition ids. -/
theorem dfsVisit_inv (g : LogicalGraph) : ∀ (fuel : Nat) (node : String)
    (color : String → Option Nat) (cycles : List (List String)) (path : List String),
    ColDomain g color → GraySet color path →
    node ∈ propIds g → (path ++ [node]).Nodup →
    List.Chain' (depEdge g) (path ++ [node]) →
    (∀ v ∈ path, v ∈ propIds g) → CyclesOk g cycles →
    ColDomain g (dfsVisit g fuel node color cycles path).1 ∧
    GraySet (dfsVisit g fuel node color cycles path).1 path ∧
    CyclesOk g (dfsVisit g fuel node color cycles path).2 := by
  intro fuel
  induction fuel with
  | zero =>
    intro node color cycles path hdom hgray _ _ _ _ hcyc
    exact ⟨hdom, hgray, hcyc⟩
  | succ f ih =>
    intro node color cycles path hdom hgray hnodeP hnd hchain hpathP hcyc
    have hpathnd : path.Nodup := (List.nodup_append.mp hnd).1
    have hnodenp : node ∉ path := fun h => (List.nodup_append.mp hnd).2.2 h (by simp)
    have hpath1P : ∀ v ∈ path ++ [node], v ∈ propIds g := by
      intro v hv
      rcases List.mem_append.mp hv with hv | hv
      · exact hpathP v hv
      · have hvn : v = node := by simpa using hv
        subst hvn
        exact hnodeP
    have hlast1 : (path ++ [node]).getLast? = some node := List.getLast?_concat _
    have fold_inv : ∀ (l : List String), (∀ nb ∈ l, nb ∈ adjOf g node) →
        ∀ col cycs, ColDomain g col → GraySet col (path ++ [node]) → CyclesOk g cycs →
        ColDomain g (l.foldl (dfsStep node (path ++ [node])
          (fun nb c cy => dfsVisit g f nb c cy (path ++ [node]))) (col, cycs)).1 ∧
        GraySet (l.foldl (dfsStep node (path ++ [node])
          (fun nb c cy => dfsVisit g f nb c cy (path ++ [node]))) (col, cycs)).1
          (path ++ [node]) ∧
        CyclesOk g (l.foldl (dfsStep node (path ++ [node])
          (fun nb c cy => dfsVisit g f nb c cy (path ++ [node]))) (col, cycs)).2 := by
      intro l
      induction l with
      | nil => intro _ col cycs h1 h2 h3; exact ⟨h1, h2, h3⟩
      | cons nb t iht =>
        intro hsub col cycs h1 h2 h3
        rw [List.foldl_cons]
        have hnbadj : nb ∈ adjOf g node := hsub nb (by simp)
        have hedge : depEdge g node nb := adjOf_mem_depEdge g node nb hnbadj
        have hsubt : ∀ x ∈ t, x ∈ adjOf g node := fun x hx => hsub x (by simp [hx])
        by_cases hself : nb = node
        · have hstep : dfsStep node (path ++ [node])
              (fun nb c cy => dfsVisit g f nb c cy (path ++ [node])) (col, cycs) nb =
              (col, cycs ++ [[node]]) := by
            simp [dfsStep, hself]
          rw [hstep]
          refine iht hsubt col _ h1 h2 ?_
          intro c hc
          rcases List.mem_append.mp hc with hc | hc
          · exact h3 c hc
          · have hcn : c = [node] := by simpa using hc
            subst hcn
            subst hself
            refine ⟨⟨by simp, by simp, by simp, by simpa using hedge⟩, ?_⟩
            intro v hv
            have : v = nb := by simpa using hv
            subst this
            exact hnodeP
        · cases hcol : col nb with
          | none =>
            have hstep : dfsStep node (path ++ [node])
                (fun nb c cy => dfsVisit g f nb c cy (path ++ [node])) (col, cycs) nb =
                (col, cycs) := by
              simp [dfsStep, hself, hcol]
            rw [hstep]
            exact iht hsubt col cycs h1 h2 h3
          | some k =>
            cases k with
            | zero =>
              have hnbP : nb ∈ propIds g := (h1 nb).mp (by simp [hcol])
              have hnbnp1 : nb ∉ path ++ [node] := by
                intro hm
                have := (h2 nb).mpr hm
                rw [hcol] at this
                simp at this
              have hnd1 : ((path ++ [node]) ++ [nb]).Nodup := by
                rw [List.nodup_append]
                exact ⟨hnd, by simp, by
                  intro x hx hx2
                  have : x = nb := by simpa using hx2
                  subst this
                  exact hnbnp1 hx⟩
              have hch1 : List.Chain' (depEdge g) ((path ++ [node]) ++ [nb]) := by
                rw [List.chain'_append]
                refine ⟨hchain, by simp, ?_⟩
                intro x hx y hy
                rw [hlast1] at hx
                have hx' : node = x := by simpa using hx
                have hy' : nb = y := by simpa using hy
                subst hx'; subst hy'
                exact hedge
              have hrec := ih nb col cycs (path ++ [node]) h1 h2 hnbP hnd1 hch1 hpath1P h3
              have hstep : dfsStep node (path ++ [node])
                  (fun nb c cy => dfsVisit g f nb c cy (path ++ [node])) (col, cycs) nb =
                  dfsVisit g f nb col cycs (path ++ [node]) := by
                simp [dfsStep, hself, hcol]
              rw [hstep]
              exact iht hsubt _ _ hrec.1 hrec.2.1 hrec.2.2
            | succ k1 =>
              cases k1 with
              | zero =>
                have hnbp1 : nb ∈ path ++ [node] := (h2 nb).mp hcol
                have hfi : (path ++ [node]).findIdx? (fun n => decide (n = nb)) =
                    some ((path ++ [node]).findIdx (fun n => decide (n = nb))) :=
                  List.findIdx?_eq_some_of_exists ⟨nb, hnbp1, by simp⟩
                obtain ⟨hidxlt, hpget, -⟩ := List.findIdx?_eq_some_iff_getElem.mp hfi
                have hdropne : (path ++ [node]).drop
                    ((path ++ [node]).findIdx (fun n => decide (n = nb))) ≠ [] := by
                  intro he
                  have := congrArg List.length he
                  simp only [List.length_drop, List.length_nil] at this
                  omega
                have hext : extract_cycle_from_path (path ++ [node]) nb =
                    (path ++ [node]).drop
                      ((path ++ [node]).findIdx (fun n => decide (n = nb))) := by
                  unfold extract_cycle_from_path
                  rw [hfi]
                have hbe : (extract_cycle_from_path (path ++ [node]) nb).isEmpty = false := by
                  rw [hext]
                  cases hd : (path ++ [node]).drop
                      ((path ++ [node]).findIdx (fun n => decide (n = nb))) with
                  | nil => exact absurd hd hdropne
                  | cons a t2 => rfl
                have hstep : dfsStep node (path ++ [node])
                    (fun nb c cy => dfsVisit g f nb c cy (path ++ [node])) (col, cycs) nb =
                    (col, cycs ++ [extract_cycle_from_path (path ++ [node]) nb]) := by
                  simp only [dfsStep, if_neg hself, hcol]
                  rw [if_neg (by simp [hbe])]
                rw [hstep]
                refine iht hsubt col _ h1 h2 ?_
                intro c hc
                rcases List.mem_append.mp hc with hc | hc
                · exact h3 c hc
                · have hcc : c = extract_cycle_from_path (path ++ [node]) nb := by
                    simpa using hc
                  subst hcc
                  rw [hext]
                  have hgetnb : (path ++ [node])[(path ++ [node]).findIdx
                      (fun n => decide (n = nb))] = nb := of_decide_eq_true hpget
                  refine ⟨⟨hdropne,
                    hnd.sublist (List.drop_sublist _ _),
                    hchain.drop _, ?_⟩, ?_⟩
                  · rw [getLast?_drop_of_lt _ _ hidxlt, hlast1,
                      List.head?_eq_getElem?, List.getElem?_drop, Nat.add_zero,
                      List.getElem?_eq_getElem hidxlt, hgetnb]
                    simpa using hedge
                  · intro v hv
                    exact hpath1P v (List.drop_subset _ _ hv)
              | succ k2 =>
                have hstep : dfsStep node (path ++ [node])
                    (fun nb c cy => dfsVisit g f nb c cy (path ++ [node])) (col, cycs) nb =
                    (col, cycs) := by
                  simp [dfsStep, hself, hcol]
                rw [hstep]
                exact iht hsubt col cycs h1 h2 h3
    have hcol0dom : ColDomain g (updCol color node 1) := by
      intro v
      unfold updCol
      by_cases hv : v = node
      · subst hv; simpa using hnodeP
      · simp only [if_neg hv]; exact hdom v
    have hcol0gray : GraySet (updCol color node 1) (path ++ [node]) := by
      intro v
      unfold updCol
      by_cases hv : v = node
      · subst hv; simp
      · simp only [if_neg hv, List.mem_append]
        rw [hgray v]
        constructor
        · intro h; exact Or.inl h
        · rintro (h | h)
          · exact h
          · exact absurd (by simpa using h) hv
    obtain ⟨hfd, hfg, hfc⟩ := fold_inv (adjOf g node) (fun nb h => h) _ _
      hcol0dom hcol0gray hcyc
    have hunf : dfsVisit g (f + 1) node color cycles path =
        (updCol ((adjOf g node).foldl (dfsStep node (path ++ [node])
          (fun nb c cy => dfsVisit g f nb c cy (path ++ [node])))
          (updCol color node 1, cycles)).1 node 2,
         ((adjOf g node).foldl (dfsStep node (path ++ [node])
          (fun nb c cy => dfsVisit g f nb c cy (path ++ [node])))
          (updCol color node 1, cycles)).2) := rfl
    rw [hunf]
    dsimp only
    refine ⟨?_, ?_, hfc⟩
    · intro v
      rw [updCol_apply]
      by_cases hv : v = node
      · subst hv
        rw [if_pos rfl]
        simpa using hnodeP
      · rw [if_neg hv]; exact hfd v
    · intro v
      rw [updCol_apply]
      by_cases hv : v = node
      · subst hv
        rw [if_pos rfl]
        constructor
        · intro h; simp at h
        · intro h; exact absurd h hnodenp
      · rw [if_neg hv, hfg v, List.mem_append]
        constructor
        · rintro (h | h)
          · exact h
          · exact absurd (by simpa using h) hv
        · intro h; exact Or.inl h

/-- Every cycle recorded by the top-level DFS loop is genuine. -/
theorem dfsAll_inv (g : LogicalGraph) : CyclesOk g (dfsAll g).2 := by
  unfold dfsAll
  suffices h : ∀ (l : List String), (∀ v ∈ l, v ∈ propIds g) →
      ∀ st : (String → Option Nat) × List (List String),
      ColDomain g st.1 → GraySet st.1 [] → CyclesOk g st.2 →
      ColDomain g (l.foldl (fun st start =>
        if st.1 start = some 0 then
          dfsVisit g (g.propositions.length + 1) start st.1 st.2 []
        else st) st).1 ∧
      GraySet (l.foldl (fun st start =>
        if st.1 start = some 0 then
          dfsVisit g (g.propositions.length + 1) start st.1 st.2 []
        else st) st).1 [] ∧
      CyclesOk g (l.foldl (fun st start =>
        if st.1 start = some 0 then
          dfsVisit g (g.propositions.length + 1) start st.1 st.2 []
        else st) st).2 by
    refine (h (propIds g) (fun v hv => hv) (initColor g, []) ?_ ?_ ?_).2.2
    · intro v
      unfold initColor
      by_cases hv : v ∈ propIds g
      · simp [hv]
      · simp [hv]
    · intro v
      unfold initColor
      by_cases hv : v ∈ propIds g
      · simp [hv]
      · simp [hv]
    · intro c hc
      simp at hc
  intro l
  induction l with
  | nil => intro _ st h1 h2 h3; exact ⟨h1, h2, h3⟩
  | cons start t iht =>
    intro hsub st h1 h2 h3
    rw [List.foldl_cons]
    have hstartP : start ∈ propIds g := hsub start (by simp)
    have hsubt : ∀ v ∈ t, v ∈ propIds g := fun v hv => hsub v (by simp [hv])
    by_cases hw : st.1 start = some 0
    · rw [if_pos hw]
      have hrec := dfsVisit_inv g (g.propositions.length + 1) start st.1 st.2 []
        h1 h2 hstartP (by simp) (by simp) (by simp) h3
      exact iht hsubt _ hrec.1 hrec.2.1 hrec.2.2
    · rw [if_neg hw]
      exact iht hsubt st h1 h2 h3

theorem dedupCyclesGo_subset : ∀ (l seen : List (List String)),
    ∀ c ∈ dedupCyclesGo seen l, c ∈ l := by
  intro l
  induction l with
  | nil => intro seen c hc; simp [dedupCyclesGo] at hc
  | cons d t ih =>
    intro seen c hc
    unfold dedupCyclesGo at hc
    by_cases hmem : normalize_cycle d ∈ seen
    · rw [if_pos hmem] at hc
      exact List.mem_cons_of_mem _ (ih seen c hc)
    · rw [if_neg hmem] at hc
      rcases List.mem_cons.mp hc with rfl | hc
      · simp
      · exact List.mem_cons_of_mem _ (ih _ c hc)

/-- Every returned cycle of `detect_cycles` is a genuine simple dependency
cycle over proposition ids. -/
theorem detect_cycles_sound (g : LogicalGraph) :
    ∀ c ∈ detect_cycles g, CycleOk g c ∧ ∀ v ∈ c, v ∈ propIds g := by
  intro c hc
  exact dfsAll_inv g c (dedupCyclesGo_subset _ _ c hc)

theorem charListLt_irrefl : ∀ x : List Char, charListLt x x = false := by
  intro x
  induction x with
  | nil => rfl
  | cons a as ih =>
    simp only [charListLt, lt_irrefl, if_false, ite_false, if_neg (lt_irrefl a.toNat)]
    exact ih

theorem charListLt_trans : ∀ x y z : List Char,
    charListLt x y = true → charListLt y z = true → charListLt x z = true := by
  intro x
  induction x with
  | nil =>
    intro y z hxy hyz
    cases y with
    | nil => exact hyz
    | cons b bs =>
      cases z with
      | nil => simp [charListLt] at hyz
      | cons c cs => rfl
  | cons a as ih =>
    intro y z hxy hyz
    cases y with
    | nil => simp [charListLt] at hxy
    | cons b bs =>
      cases z with
      | nil => simp [charListLt] at hyz
      | cons c cs =>
        simp only [charListLt] at hxy hyz ⊢
        by_cases hab : a.toNat < b.toNat
        · by_cases hbc : b.toNat < c.toNat
          · simp [show a.toNat < c.toNat by omega]
          · by_cases hcb : c.toNat < b.toNat
            · simp [if_neg hbc, if_pos hcb] at hyz
            · simp [show a.toNat < c.toNat by omega]
        · by_cases hba : b.toNat < a.toNat
          · simp [if_neg hab, if_pos hba] at hxy
          · by_cases hbc : b.toNat < c.toNat
            · simp [show a.toNat < c.toNat by omega]
            · by_cases hcb : c.toNat < b.toNat
              · simp [if_neg hbc, if_pos hcb] at hyz
              · simp only [if_neg hab, if_neg hba] at hxy
                simp only [if_neg hbc, if_neg hcb] at hyz
                simp only [show ¬ a.toNat < c.toNat by omega,
                  show ¬ c.toNat < a.toNat by omega, if_neg, ite_false]
                exact ih bs cs hxy hyz

theorem strLtB_irrefl (a : String) : strLtB a a = false :=
  charListLt_irrefl a.data

theorem strLtB_trans (a b c : String) (h1 : strLtB a b = true) (h2 : strLtB b c = true) :
    strLtB a c = true :=
  charListLt_trans a.data b.data c.data h1 h2

theorem strLtB_asymm (a b : String) (h1 : strLtB a b = true) : strLtB b a = false := by
  by_contra h
  have h2 : strLtB b a = true := by
    cases hv : strLtB b a
    · exact absurd hv h
    · rfl
  have := strLtB_trans a b a h1 h2
  rw [strLtB_irrefl] at this
  exact Bool.noConfusion this

/-- Behaviour of the `min_by_key` scan: the result indexes either the
running best or a strictly smaller later element, and nothing scanned is
strictly below the final value. -/
theorem argminAux_min : ∀ (t : List String) (best cur : Nat) (bestv : String),
    ∃ r v, argminAux best bestv cur t = r ∧
      ((r = best ∧ v = bestv) ∨ ∃ j, ∃ h : j < t.length, r = cur + j ∧ v = t.get ⟨j, h⟩) ∧
      (strLtB v bestv = true ∨ v = bestv) ∧
      (∀ x ∈ t, strLtB x v = false) := by
  intro t
  induction t with
  | nil =>
    intro best cur bestv
    exact ⟨best, bestv, rfl, Or.inl ⟨rfl, rfl⟩, Or.inr rfl, by simp⟩
  | cons x t ih =>
    intro best cur bestv
    by_cases hx : strLtB x bestv = true
    · obtain ⟨r, v, hr, hpos, hle, hdom⟩ := ih cur (cur + 1) x
      refine ⟨r, v, by simp [argminAux, hx]; exact hr, ?_, ?_, ?_⟩
      · rcases hpos with ⟨hrb, hvb⟩ | ⟨j, hj, hrj, hvj⟩
        · exact Or.inr ⟨0, by simp, by omega, by simp [hvb]⟩
        · exact Or.inr ⟨j + 1, by simpa using Nat.succ_lt_succ hj, by omega, by simpa using hvj⟩
      · rcases hle with hlt | heq
        · exact Or.inl (strLtB_trans v x bestv hlt hx)
        · exact Or.inl (heq ▸ hx)
      · intro y hy
        rcases List.mem_cons.mp hy with rfl | hyt
        · rcases hle with hlt | heq
          · exact strLtB_asymm v y hlt
          · rw [heq]; exact strLtB_irrefl y
        · exact hdom y hyt
    · obtain ⟨r, v, hr, hpos, hle, hdom⟩ := ih best (cur + 1) bestv
      have hxf : strLtB x bestv = false := by
        cases hv : strLtB x bestv
        · rfl
        · exact absurd hv hx
      refine ⟨r, v, by simp [argminAux, hxf]; exact hr, ?_, hle, ?_⟩
      · rcases hpos with ⟨hrb, hvb⟩ | ⟨j, hj, hrj, hvj⟩
        · exact Or.inl ⟨hrb, hvb⟩
        · exact Or.inr ⟨j + 1, by simpa using Nat.succ_lt_succ hj, by omega, by simpa using hvj⟩
      · intro y hy
        rcases List.mem_cons.mp hy with rfl | hyt
        · cases hyv : strLtB y v with
          | false => rfl
          | true =>
            exfalso
            rcases hle with hlt | heq
            · have := strLtB_trans y v bestv hyv hlt
              rw [hxf] at this
              exact Bool.noConfusion this
            · rw [heq] at hyv
              rw [hxf] at hyv
              exact Bool.noConfusion hyv
        · exact hdom y hyt

/-- The argmin index is in range and indexes a minimum. -/
theorem argminIdx_spec (c : List String) (hne : c ≠ []) :
    ∃ h : argminIdx c < c.length,
      ∀ y ∈ c, strLtB y (c.get ⟨argminIdx c, h⟩) = false := by
  cases c with
  | nil => exact absurd rfl hne
  | cons x t =>
    obtain ⟨r, v, hr, hpos, hle, hdom⟩ := argminAux_min t 0 1 x
    have hidx : argminIdx (x :: t) = r := by simp [argminIdx, hr]
    have hlt : r < (x :: t).length := by
      rcases hpos with ⟨hrb, -⟩ | ⟨j, hj, hrj, -⟩
      · rw [hrb]; simp
      · rw [hrj]; simp only [List.length_cons]; omega
    have hget : (x :: t).get ⟨r, hlt⟩ = v := by
      rcases hpos with ⟨hrb, hvb⟩ | ⟨j, hj, hrj, hvj⟩
      · subst hrb; simp [hvb]
      · subst hrj
        rw [hvj]
        have h1j : 1 + j = j + 1 := by omega
        have hlt2 : j + 1 < (x :: t).length := by simp only [List.length_cons]; omega
        have : (x :: t).get ⟨1 + j, hlt⟩ = (x :: t).get ⟨j + 1, hlt2⟩ := by
          congr 1
          exact Fin.ext h1j
        rw [this]
        simp
    rw [hidx]
    refine ⟨hlt, ?_⟩
    rw [hget]
    intro y hy
    rcases List.mem_cons.mp hy with rfl | hyt
    · rcases hle with hlt2 | heq
      · exact strLtB_asymm v y hlt2
      · rw [heq]; exact strLtB_irrefl y
    · exact hdom y hyt

/-- All rotations in the list: predicate for the dedup claim. -/
def IsRotation (a b : List String) : Prop :=
  ∃ k, b = a.rotate k

/-- Rotationally equivalent duplicate-free cycles normalise identically:
the canonical rotation starts at the unique minimal identifier. -/
theorem normalize_eq_of_rotation (a : List String) (hnd : a.Nodup) (k : Nat) :
    normalize_cycle a = normalize_cycle (a.rotate k) := by
  by_cases hlen : a.length ≤ 1
  · cases a with
    | nil => rw [List.rotate_nil]
    | cons x t =>
      cases t with
      | nil => rw [List.rotate_singleton]
      | cons y t2 => simp at hlen
  · have hn1 : 1 < a.length := by omega
    have hne : a ≠ [] := by
      intro h
      rw [h] at hn1
      simp at hn1
    have hbne : a.rotate k ≠ [] := by
      intro h
      have hl := congrArg List.length h
      rw [List.length_rotate] at hl
      simp only [List.length_nil] at hl
      omega
    have hnormA : normalize_cycle a = a.rotate (argminIdx a) := by
      unfold normalize_cycle
      rw [if_neg (by omega)]
    have hnormB : normalize_cycle (a.rotate k) =
        (a.rotate k).rotate (argminIdx (a.rotate k)) := by
      unfold normalize_cycle
      rw [if_neg (by rw [List.length_rotate]; omega)]
    obtain ⟨hia, hmina⟩ := argminIdx_spec a hne
    obtain ⟨hib, hminb⟩ := argminIdx_spec (a.rotate k) hbne
    have hvb := List.get_rotate a k ⟨argminIdx (a.rotate k), hib⟩
    have hva_mem_b : a.get ⟨argminIdx a, hia⟩ ∈ a.rotate k :=
      (List.rotate_perm a k).mem_iff.mpr (a.get_mem _ hia)
    have hvb_mem_a : (a.rotate k).get ⟨argminIdx (a.rotate k), hib⟩ ∈ a :=
      (List.rotate_perm a k).mem_iff.mp ((a.rotate k).get_mem _ hib)
    have h1 := hmina _ hvb_mem_a
    have h2 := hminb _ hva_mem_b
    have hveq : a.get ⟨argminIdx a, hia⟩ =
        (a.rotate k).get ⟨argminIdx (a.rotate k), hib⟩ :=
      strLtB_connected _ _ h2 h1
    rw [hvb] at hveq
    have hfin := (List.Nodup.get_inj_iff hnd).mp hveq
    have hidx : argminIdx a = (argminIdx (a.rotate k) + k) % a.length := by
      have := congrArg Fin.val hfin
      simpa using this
    rw [hnormA, hnormB, List.rotate_rotate, hidx]
    rw [← List.rotate_mod a (k + argminIdx (a.rotate k))]
    congr 1
    rw [Nat.add_comm]

/-- What the dedup keeps: nothing whose normalisation was already seen, and
pairwise distinct normalisations. -/
theorem dedupCyclesGo_spec : ∀ (l seen : List (List String)),
    (∀ c ∈ dedupCyclesGo seen l, normalize_cycle c ∉ seen) ∧
    List.Pairwise (fun c1 c2 => normalize_cycle c1 ≠ normalize_cycle c2)
      (dedupCyclesGo seen l) := by
  intro l
  induction l with
  | nil => intro seen; constructor <;> simp [dedupCyclesGo]
  | cons d t ih =>
    intro seen
    unfold dedupCyclesGo
    by_cases hmem : normalize_cycle d ∈ seen
    · rw [if_pos hmem]
      exact ih seen
    · rw [if_neg hmem]
      obtain ⟨ih1, ih2⟩ := ih (normalize_cycle d :: seen)
      constructor
      · intro c hc
        rcases List.mem_cons.mp hc with rfl | hc
        · exact hmem
        · intro hs
          exact ih1 c hc (List.mem_cons_of_mem _ hs)
      · refine List.Pairwise.cons ?_ ih2
        intro c hc
        intro he
        exact ih1 c hc (by rw [← he]; simp)

/-- C3 (amended): every sequence returned by `detect_cycles` is a simple
dependency cycle over proposition ids — length at least 1, duplicate-free
(in particular no trailing repeat of the first node), consecutive
dependency edges and a closing edge — and no two returned sequences are
rotations of each other.  The completeness half of the original claim is
dropped: the gray-hit DFS misses simple cycles whose nodes were already
blackened (see the counterexample). -/
theorem claim_C3_detect_cycles (g : LogicalGraph) :
    (∀ c ∈ detect_cycles g, CycleOk g c ∧ (∀ v ∈ c, v ∈ propIds g) ∧
      (1 < c.length → c.getLast?.getD "" ≠ c.head?.getD "")) ∧
    List.Pairwise (fun c1 c2 => ¬ IsRotation c1 c2) (detect_cycles g) := by
  constructor
  · intro c hc
    obtain ⟨hok, hprop⟩ := detect_cycles_sound g c hc
    refine ⟨hok, hprop, ?_⟩
    intro hlen1 heq
    obtain ⟨hne, hnd, -, -⟩ := hok
    have h0 : 0 < c.length := by omega
    rw [List.getLast?_eq_getElem? c, List.head?_eq_getElem? c,
      List.getElem?_eq_getElem (show c.length - 1 < c.length by omega),
      List.getElem?_eq_getElem h0] at heq
    simp only [Option.getD_some] at heq
    have := (List.Nodup.getElem_inj_iff hnd).mp heq
    omega
  · have hpair := (dedupCyclesGo_spec (dfsAll g).2 []).2
    refine List.Pairwise.imp_of_mem ?_ hpair
    intro c1 c2 h1 h2 hne hrot
    obtain ⟨k, hk⟩ := hrot
    obtain ⟨⟨-, hnd1, -, -⟩, -⟩ :=
      detect_cycles_sound g c1 h1
    exact hne (hk ▸ normalize_eq_of_rotation c1 hnd1 k)

/-- The diamond with a back edge: `A → B → D`, `A → C → D`, `D → A`.  Its
simple dependency cycles are `A B D` and `A C D` (up to rotation). -/
def gDiamond : LogicalGraph :=
  ⟨[sampleProp "A", sampleProp "B", sampleProp "C", sampleProp "D"],
   [sampleRel "r1" "A" "B" "supports", sampleRel "r2" "A" "C" "supports",
    sampleRel "r3" "B" "D" "supports", sampleRel "r4" "C" "D" "supports",
    sampleRel "r5" "D" "A" "supports"]⟩

/-- Counterexample to C3 as stated: on `gDiamond` the DFS returns only the
cycle `A B D`; the simple dependency cycle `A C D` is not represented by
any returned sequence (its node `C` is black when the closing edge is
re-examined), so "every simple cycle is represented" fails. -/
theorem claim_C3_counterexample :
    detect_cycles gDiamond = [["A", "B", "D"]] ∧
    CycleOk gDiamond ["A", "C", "D"] ∧
    (∀ v ∈ ["A", "C", "D"], v ∈ propIds gDiamond) ∧
    ¬ IsRotation ["A", "C", "D"] ["A", "B", "D"] ∧
    ¬ IsRotation ["A", "B", "D"] ["A", "C", "D"] := by
  refine ⟨rfl, ⟨by decide, by decide, ?_, by decide⟩, by decide, ?_, ?_⟩
  · exact List.Chain.cons (by decide) (List.Chain.cons (by decide) List.Chain.nil)
  · rintro ⟨k, hk⟩
    have hmem : "B" ∈ (["A", "C", "D"] : List String).rotate k := by
      rw [← hk]; decide
    have := (List.rotate_perm (["A", "C", "D"] : List String) k).mem_iff.mp hmem
    simp at this
  · rintro ⟨k, hk⟩
    have hmem : "C" ∈ (["A", "B", "D"] : List String).rotate k := by
      rw [← hk]; decide
    have := (List.rotate_perm (["A", "B", "D"] : List String) k).mem_iff.mp hmem
    simp at this

/-- Witness for the amended C3 on `gDiamond`: the returned sequence
`A B D` is a genuine simple dependency cycle over listed propositions. -/
theorem claim_C3_detect_cycles_witness :
    CycleOk gDiamond ["A", "B", "D"] ∧
    (∀ v ∈ ["A", "B", "D"], v ∈ propIds gDiamond) := by
  have h := (claim_C3_detect_cycles gDiamond).1 ["A", "B", "D"] (by decide)
  exact ⟨h.1, h.2.1⟩

/-! ### centrality.rs: Brandes betweenness centrality

The per-source BFS state is the 4-tuple (dist, sigma, predecessors,
queue); the maps are total functions (every map of centrality.rs is keyed
on exactly the proposition ids, and `dist.contains_key(w)` is the check
`w ∈ ids`).  f64 arithmetic is modelled exactly over ℚ. -/

/-- centrality.rs lines 57-69: the body run on neighbour `w` once `w` is
known to be a key — first-visit sets `dist` and enqueues `w` (the
`ids.iter().find(...)` on line 61 pushes a string equal to `w`), then a
shortest path via `v` accumulates `sigma` and records the predecessor. -/
def bfsRelax (v : String) (vd : Int) (dist : String → Int) (sigma : String → ℚ)
    (preds : String → List String) (queue : List String) (w : String) :
    (String → Int) × (String → ℚ) × (String → List String) × List String :=
  if dist w = vd + 1 then
    (dist, fun x => if x = w then sigma w + sigma v else sigma x,
     fun x => if x = w then preds w ++ [v] else preds x, queue)
  else (dist, sigma, preds, queue)

/-- centrality.rs lines 50-70: one neighbour of the popped node `v`
(`vd` is `dist[v]` read before the neighbour loop). -/
def bfsNeighbor (ids : List String) (v : String) (vd : Int)
    (st : (String → Int) × (String → ℚ) × (String → List String) × List String)
    (w : String) :
    (String → Int) × (String → ℚ) × (String → List String) × List String :=
  if w ∈ ids then
    bfsRelax v vd
      (if st.1 w < 0 then (fun x => if x = w then vd + 1 else st.1 x) else st.1)
      st.2.1 st.2.2.1
      (if st.1 w < 0 then st.2.2.2 ++ [w] else st.2.2.2) w
  else st

/-- centrality.rs lines 45-72: the BFS while-loop; each iteration pops
the queue head onto the stack and relaxes its dependency neighbours in
adjacency order; returns (stack, sigma, predecessors). -/
def bfsLoop (g : LogicalGraph) (ids : List String) :
    Nat → ((String → Int) × (String → ℚ) × (String → List String) × List String) →
    List String → List String × (String → ℚ) × (String → List String)
  | 0, st, stack => (stack, st.2.1, st.2.2.1)
  | fuel + 1, st, stack =>
    match st.2.2.2 with
    | [] => (stack, st.2.1, st.2.2.1)
    | v :: rest =>
      bfsLoop g ids fuel
        ((adjOf g v).foldl (bfsNeighbor ids v (st.1 v)) (st.1, st.2.1, st.2.2.1, rest))
        (stack ++ [v])

/-- centrality.rs line 90-91: one predecessor's dependency contribution
added into delta (the right-hand side reads the current delta). -/
def deltaUpd (sigma : String → ℚ) (w : String) (d : String → ℚ) (v : String) :
    String → ℚ :=
  fun x => if x = v then d v + (sigma v / sigma w) * (1 + d w) else d x

/-- centrality.rs lines 80-96: the back-propagation body for one popped
node `w`; the state is (delta, centrality). -/
def backPropStep (source : String) (sigma : String → ℚ)
    (preds : String → List String) (st : (String → ℚ) × (String → ℚ))
    (w : String) : (String → ℚ) × (String → ℚ) :=
  if w = source then st
  else if sigma w = 0 then st
  else
    ((preds w).foldl (deltaUpd sigma w) st.1,
     fun x => if x = w then st.2 w + ((preds w).foldl (deltaUpd sigma w) st.1) w
              else st.2 x)

/-- The BFS of one source: `dist` is 0 at the source and -1 elsewhere,
`sigma` is 1 at the source and 0 elsewhere, predecessors are empty and
the queue holds the source (centrality.rs lines 29-43). -/
def bcRun (g : LogicalGraph) (ids : List String) (source : String) :
    List String × (String → ℚ) × (String → List String) :=
  bfsLoop g ids (ids.length + 1)
    ((fun x => if x = source then (0 : Int) else -1),
     (fun x => if x = source then (1 : ℚ) else 0),
     (fun _ => []), [source]) []

/-- One iteration of centrality.rs's outer source loop (lines 27-97):
BFS, then back-propagation over the stack in pop (reverse-push) order,
accumulating into the running centrality map. -/
def brandesSource (g : LogicalGraph) (ids : List String)
    (cent : String → ℚ) (source : String) : String → ℚ :=
  ((bcRun g ids source).1.reverse.foldl
    (backPropStep source (bcRun g ids source).2.1 (bcRun g ids source).2.2)
    ((fun _ => (0 : ℚ)), cent)).2

/-- centrality.rs lines 108-111: values above 1 are clamped to 1; there
is no lower clamp. -/
def clampHi (v : ℚ) : ℚ := if v > 1 then 1 else v

/-- centrality.rs lines 100-104: divide by (n-1)(n-2) when n > 2,
otherwise by 1. -/
def bcNorm (g : LogicalGraph) : ℚ :=
  if 2 < g.propositions.length
  then (((g.propositions.length - 1) * (g.propositions.length - 2) : ℕ) : ℚ)
  else 1

/-- The raw Brandes accumulation over all sources (centrality.rs
lines 16-97, before normalisation). -/
def bcCent (g : LogicalGraph) : String → ℚ :=
  (propIds g).foldl (brandesSource g (propIds g)) (fun _ => 0)

/-- centrality.rs `betweenness_centrality`, as the association list
pairing each distinct proposition id (the HashMap keyset) with its final
score; with fewer than 2 propositions the all-zero map is returned
before any source iteration (lines 21-23). -/
def betweenness_centrality (g : LogicalGraph) : List (String × ℚ) :=
  if g.propositions.length < 2 then (propIds g).dedup.map (fun i => (i, 0))
  else (propIds g).dedup.map (fun i => (i, clampHi (bcCent g i / bcNorm g)))

theorem bfsRelax_sigma_nonneg (v : String) (vd : Int) (dist : String → Int)
    (sigma : String → ℚ) (preds : String → List String) (queue : List String)
    (w : String) (h : ∀ x, 0 ≤ sigma x) :
    ∀ x, 0 ≤ (bfsRelax v vd dist sigma preds queue w).2.1 x := by
  intro x
  unfold bfsRelax
  split
  · dsimp only
    split
    · exact add_nonneg (h _) (h _)
    · exact h x
  · exact h x

theorem bfsNeighbor_sigma_nonneg (ids : List String) (v : String) (vd : Int)
    (st : (String → Int) × (String → ℚ) × (String → List String) × List String)
    (w : String) (h : ∀ x, 0 ≤ st.2.1 x) :
    ∀ x, 0 ≤ (bfsNeighbor ids v vd st w).2.1 x := by
  intro x
  unfold bfsNeighbor
  split
  · exact bfsRelax_sigma_nonneg _ _ _ _ _ _ _ h x
  · exact h x

theorem bfsFold_sigma_nonneg (ids : List String) (v : String) (vd : Int)
    (l : List String) :
    ∀ st, (∀ x, 0 ≤ st.2.1 x) →
      ∀ x, 0 ≤ (l.foldl (bfsNeighbor ids v vd) st).2.1 x := by
  induction l with
  | nil => intro st h x; exact h x
  | cons a t ih => intro st h x; exact ih _ (bfsNeighbor_sigma_nonneg ids v vd st a h) x

theorem bfsLoop_sigma_nonneg (g : LogicalGraph) (ids : List String) (fuel : Nat) :
    ∀ st stack, (∀ x, 0 ≤ st.2.1 x) →
      ∀ x, 0 ≤ (bfsLoop g ids fuel st stack).2.1 x := by
  induction fuel with
  | zero => intro st stack h x; exact h x
  | succ f ih =>
    intro st stack h x
    obtain ⟨dist, sigma, preds, queue⟩ := st
    cases queue with
    | nil => exact h x
    | cons v rest =>
      exact ih _ _ (bfsFold_sigma_nonneg ids v (dist v) (adjOf g v)
        (dist, sigma, preds, rest) h) x

theorem deltaFold_nonneg (sigma : String → ℚ) (w : String) (hs : ∀ x, 0 ≤ sigma x)
    (l : List String) :
    ∀ d : String → ℚ, (∀ x, 0 ≤ d x) →
      ∀ x, 0 ≤ (l.foldl (deltaUpd sigma w) d) x := by
  induction l with
  | nil => intro d hd x; exact hd x
  | cons a t ih =>
    intro d hd x
    refine ih _ ?_ x
    intro y
    unfold deltaUpd
    split
    · exact add_nonneg (hd a)
        (mul_nonneg (div_nonneg (hs a) (hs w)) (add_nonneg zero_le_one (hd w)))
    · exact hd y

theorem backPropStep_nonneg (source : String) (sigma : String → ℚ)
    (preds : String → List String) (st : (String → ℚ) × (String → ℚ))
    (w : String) (hs : ∀ x, 0 ≤ sigma x)
    (h1 : ∀ x, 0 ≤ st.1 x) (h2 : ∀ x, 0 ≤ st.2 x) :
    (∀ x, 0 ≤ (backPropStep source sigma preds st w).1 x) ∧
    (∀ x, 0 ≤ (backPropStep source sigma preds st w).2 x) := by
  unfold backPropStep
  split
  · exact ⟨h1, h2⟩
  · split
    · exact ⟨h1, h2⟩
    · refine ⟨deltaFold_nonneg sigma w hs _ _ h1, ?_⟩
      intro x
      dsimp only
      split
      · exact add_nonneg (h2 _) (deltaFold_nonneg sigma w hs _ _ h1 w)
      · exact h2 x

theorem backProp_cent_nonneg (source : String) (sigma : String → ℚ)
    (preds : String → List String) (hs : ∀ x, 0 ≤ sigma x) (l : List String) :
    ∀ st : (String → ℚ) × (String → ℚ), (∀ x, 0 ≤ st.1 x) → (∀ x, 0 ≤ st.2 x) →
      ∀ x, 0 ≤ (l.foldl (backPropStep source sigma preds) st).2 x := by
  induction l with
  | nil => intro st _ h2 x; exact h2 x
  | cons a t ih =>
    intro st h1 h2 x
    have hstep := backPropStep_nonneg source sigma preds st a hs h1 h2
    exact ih _ hstep.1 hstep.2 x

theorem brandesSource_nonneg (g : LogicalGraph) (ids : List String)
    (cent : String → ℚ) (source : String) (h : ∀ x, 0 ≤ cent x) :
    ∀ x, 0 ≤ brandesSource g ids cent source x := by
  intro x
  unfold brandesSource
  refine backProp_cent_nonneg source _ _ ?_ _ _ ?_ h x
  · refine bfsLoop_sigma_nonneg g ids _ _ _ ?_
    intro y
    dsimp only
    split
    · exact zero_le_one
    · exact le_refl 0
  · intro y; exact le_refl 0

theorem bcCent_nonneg (g : LogicalGraph) : ∀ x, 0 ≤ bcCent g x := by
  unfold bcCent
  generalize (propIds g) = l
  have : ∀ (l2 : List String) (c : String → ℚ), (∀ x, 0 ≤ c x) →
      ∀ x, 0 ≤ (l2.foldl (brandesSource g l) c) x := by
    intro l2
    induction l2 with
    | nil => intro c hc x; exact hc x
    | cons a t ih => intro c hc x; exact ih _ (brandesSource_nonneg g l c a hc) x
  exact this l (fun _ => 0) (fun _ => le_refl 0)

theorem bcNorm_pos (g : LogicalGraph) : 0 < bcNorm g := by
  unfold bcNorm
  split
  · rename_i h
    have h1 : 0 < (g.propositions.length - 1) * (g.propositions.length - 2) := by
      have : 2 < g.propositions.length := h
      have := Nat.sub_pos_of_lt (by omega : 1 < g.propositions.length)
      exact Nat.mul_pos this (Nat.sub_pos_of_lt (by omega))
    exact_mod_cast h1
  · exact zero_lt_one

theorem clampHi_nonneg (v : ℚ) (h : 0 ≤ v) : 0 ≤ clampHi v := by
  unfold clampHi; split
  · exact zero_le_one
  · exact h

theorem clampHi_le_one (v : ℚ) : clampHi v ≤ 1 := by
  unfold clampHi; split
  · exact le_refl 1
  · linarith [not_lt.mp (by assumption : ¬ v > 1)]

/-- A one-proposition graph (the `n < 2` early return of centrality.rs). -/
def gSingle : LogicalGraph := ⟨[sampleProp "A"], []⟩

/-- CLAIM C4: `betweenness_centrality` keys every proposition's id; every
score lies in [0, 1] (nonnegative raw accumulations, upper clamp at 1);
with fewer than 2 propositions every score is exactly 0; and with more
than 2 propositions each score is the raw Brandes accumulation divided by
(n-1)(n-2) and then clamped. -/
theorem claim_C4_centrality (g : LogicalGraph) :
    (∀ p ∈ g.propositions, ∃ v, (p.id, v) ∈ betweenness_centrality g) ∧
    (∀ kv ∈ betweenness_centrality g, 0 ≤ kv.2 ∧ kv.2 ≤ 1) ∧
    (g.propositions.length < 2 → ∀ kv ∈ betweenness_centrality g, kv.2 = 0) ∧
    (2 < g.propositions.length →
      betweenness_centrality g = (propIds g).dedup.map
        (fun i => (i, clampHi (bcCent g i /
          (((g.propositions.length - 1) * (g.propositions.length - 2) : ℕ) : ℚ))))) := by
  refine ⟨?_, ?_, ?_, ?_⟩
  · intro p hp
    have hid : p.id ∈ (propIds g).dedup :=
      List.mem_dedup.mpr (List.mem_map.mpr ⟨p, hp, rfl⟩)
    unfold betweenness_centrality
    split
    · exact ⟨0, List.mem_map.mpr ⟨p.id, hid, rfl⟩⟩
    · exact ⟨clampHi (bcCent g p.id / bcNorm g), List.mem_map.mpr ⟨p.id, hid, rfl⟩⟩
  · intro kv hkv
    unfold betweenness_centrality at hkv
    split at hkv
    · obtain ⟨i, _, rfl⟩ := List.mem_map.mp hkv
      exact ⟨le_refl 0, zero_le_one⟩
    · obtain ⟨i, _, rfl⟩ := List.mem_map.mp hkv
      have hnn : 0 ≤ bcCent g i / bcNorm g :=
        div_nonneg (bcCent_nonneg g i) (le_of_lt (bcNorm_pos g))
      exact ⟨clampHi_nonneg _ hnn, clampHi_le_one _⟩
  · intro hn kv hkv
    unfold betweenness_centrality at hkv
    rw [if_pos hn] at hkv
    obtain ⟨i, _, rfl⟩ := List.mem_map.mp hkv
    rfl
  · intro hn
    unfold betweenness_centrality
    rw [if_neg (by omega)]
    have : bcNorm g =
        (((g.propositions.length - 1) * (g.propositions.length - 2) : ℕ) : ℚ) := by
      unfold bcNorm; rw [if_pos hn]
    rw [this]

/-- Witness for C4 on the one-proposition graph: the `n < 2` early
return yields the all-zero map. -/
theorem claim_C4_centrality_witness :
    gSingle.propositions.length < 2 ∧
    ∀ kv ∈ betweenness_centrality gSingle, kv.2 = 0 :=
  ⟨by decide, (claim_C4_centrality gSingle).2.2.1 (by decide)⟩

/-! ### argument_scorer.rs -/

/-- argument_scorer.rs lines 22-26 / 69-73: incoming "supports" edges. -/
def evidencePaths (g : LogicalGraph) (i : String) : Nat :=
  ((g.get_relationships_to i).filter (fun r => r.rel_type = "supports")).length

/-- argument_scorer.rs lines 29-32: contradictions naming this id. -/
def contradictionCount (cs : List Contradiction) (i : String) : Nat :=
  (cs.filter (fun c => i ∈ c.proposition_ids)).length

/-- argument_scorer.rs lines 66-78 / 85-97: the endpoint is a
load-bearing assumption with zero incoming "supports" edges. -/
def isVulnerable (g : LogicalGraph) (i : String) : Bool :=
  match g.get_proposition i with
  | some t => t.prop_type = "assumption" && t.is_load_bearing &&
      ((g.get_relationships_to t.id).filter (fun r => r.rel_type = "supports")).length = 0
  | none => false

/-- argument_scorer.rs `count_vulnerable_assumptions`: outgoing
depends_on/assumes edges whose target is vulnerable, plus incoming
depends_on/assumes edges whose source is vulnerable. -/
def count_vulnerable_assumptions (g : LogicalGraph) (prop_id : String) : Nat :=
  ((g.get_relationships_from prop_id).countP
    (fun r => ((r.rel_type = "depends_on" || r.rel_type = "assumes") &&
      isVulnerable g r.to_id : Bool))) +
  ((g.get_relationships_to prop_id).countP
    (fun r => ((r.rel_type = "depends_on" || r.rel_type = "assumes") &&
      isVulnerable g r.from_id : Bool)))

/-- f64::clamp(0.0, 1.0) (argument_scorer.rs line 44). -/
def clamp01 (v : ℚ) : ℚ := if v < 0 then 0 else if v > 1 then 1 else v

/-- `centrality.get(&id).copied().unwrap_or(0.0)` over the association
list standing for the centrality HashMap. -/
def centLookup (cent : List (String × ℚ)) (i : String) : ℚ :=
  match cent.find? (fun kv => kv.1 = i) with
  | some kv => kv.2
  | none => 0

/-- argument_scorer.rs lines 39-44: base - penalty + centrality bonus. -/
def rawScore (g : LogicalGraph) (cs : List Contradiction)
    (cent : List (String × ℚ)) (i : String) : ℚ :=
  (evidencePaths g i : ℚ) / ((evidencePaths g i : ℚ) + 1)
  - ((contradictionCount cs i : ℚ) * (3/10)
    + (count_vulnerable_assumptions g i : ℚ) * (1/5))
  + centLookup cent i * (1/10)

/-- argument_scorer.rs lines 20-53: the record built for one proposition. -/
def scoreOf (g : LogicalGraph) (cs : List Contradiction)
    (cent : List (String × ℚ)) (p : Proposition) : ArgumentScore :=
  ⟨p.id, clamp01 (rawScore g cs cent p.id), evidencePaths g p.id,
   contradictionCount cs p.id, count_vulnerable_assumptions g p.id⟩

/-- argument_scorer.rs `score_arguments`: one record per proposition, in
input order. -/
def score_arguments (g : LogicalGraph) (cs : List Contradiction)
    (cent : List (String × ℚ)) : List ArgumentScore :=
  g.propositions.map (scoreOf g cs cent)

theorem clamp01_nonneg (v : ℚ) : 0 ≤ clamp01 v := by
  unfold clamp01
  split
  · exact le_refl 0
  · split
    · exact zero_le_one
    · linarith [not_lt.mp (by assumption : ¬ v < 0)]

theorem clamp01_le_one (v : ℚ) : clamp01 v ≤ 1 := by
  unfold clamp01
  split
  · exact zero_le_one
  · split
    · exact le_refl 1
    · linarith [not_lt.mp (by assumption : ¬ v > 1)]

/-- CLAIM C5: `score_arguments` emits exactly one record per proposition
in input order; the i-th record carries that proposition's id, its
incoming-supports count, its contradiction count, its vulnerable
assumption count, and the score clamp(base - (0.3·contradictions +
0.2·vulnerable) + 0.1·centrality, 0, 1) with base = e/(e+1); every
emitted score lies in [0, 1]. -/
theorem claim_C5_score_arguments (g : LogicalGraph) (cs : List Contradiction)
    (cent : List (String × ℚ)) :
    (score_arguments g cs cent).length = g.propositions.length ∧
    (∀ i, i < g.propositions.length →
      ∃ p, g.propositions[i]? = some p ∧
        (score_arguments g cs cent)[i]? = some ⟨p.id,
          clamp01 ((evidencePaths g p.id : ℚ) / ((evidencePaths g p.id : ℚ) + 1)
            - ((contradictionCount cs p.id : ℚ) * (3/10)
              + (count_vulnerable_assumptions g p.id : ℚ) * (1/5))
            + centLookup cent p.id * (1/10)),
          evidencePaths g p.id, contradictionCount cs p.id,
          count_vulnerable_assumptions g p.id⟩) ∧
    (∀ s ∈ score_arguments g cs cent, 0 ≤ s.score ∧ s.score ≤ 1) := by
  refine ⟨List.length_map _ _, ?_, ?_⟩
  · intro i h
    refine ⟨g.propositions[i], List.getElem?_eq_getElem h, ?_⟩
    unfold score_arguments
    rw [List.getElem?_map, List.getElem?_eq_getElem h]
    rfl
  · intro s hs
    unfold score_arguments at hs
    obtain ⟨p, _, rfl⟩ := List.mem_map.mp hs
    exact ⟨clamp01_nonneg _, clamp01_le_one _⟩

/-- Witness for C5 on the chain graph with no contradictions and an
empty centrality map, at index 0. -/
theorem claim_C5_score_arguments_witness :
    0 < gChain.propositions.length ∧
    ∃ p, gChain.propositions[0]? = some p ∧
      (score_arguments gChain [] [])[0]? = some ⟨p.id,
        clamp01 ((evidencePaths gChain p.id : ℚ) / ((evidencePaths gChain p.id : ℚ) + 1)
          - ((contradictionCount [] p.id : ℚ) * (3/10)
            + (count_vulnerable_assumptions gChain p.id : ℚ) * (1/5))
          + centLookup [] p.id * (1/10)),
        evidencePaths gChain p.id, contradictionCount [] p.id,
        count_vulnerable_assumptions gChain p.id⟩ :=
  ⟨by decide, (claim_C5_score_arguments gChain [] []).2.1 0 (by decide)⟩

/-! ### fallacy_detector.rs -/

/-- The incoming "supports" edges of a node. -/
def supportsTo (g : LogicalGraph) (i : String) : List Relationship :=
  (g.get_relationships_to i).filter (fun r => r.rel_type = "supports")

/-- fallacy_detector.rs lines 11-30: one circular-reasoning record per
given cycle. -/
def fallacyCircular (g : LogicalGraph) : Nat → List (List String) → Nat × List Fallacy
  | c, [] => (c, [])
  | c, cycle :: rest =>
    let c1 := c + 1
    let labels := cycle.filterMap (fun i => (g.get_proposition i).map
      (fun p => "\"" ++ p.statement ++ "\""))
    let item : Fallacy :=
      { id := "fallacy-circular-" ++ toString c1
        name := "Circular Reasoning (Petitio Principii)"
        description := "A circular dependency was detected: " ++
          String.intercalate " → " labels ++
          " form a logical loop where each proposition ultimately depends on itself. This means the argument is self-supporting with no independent foundation."
        affected_node_ids := cycle
        pattern_type := "cycle" }
    let r := fallacyCircular g c1 rest
    (r.1, item :: r.2)

/-- fallacy_detector.rs lines 35-83: high-confidence claims with one
supporting edge (more than zero, fewer than the threshold 2); the
affected ids chain the raw `from_id`s of the supporting edges. -/
def fallacyHasty (g : LogicalGraph) : Nat → List Proposition → Nat × List Fallacy
  | c, [] => (c, [])
  | c, p :: rest =>
    if p.confidence = "high" ∧ 0 < (supportsTo g p.id).length ∧
        (supportsTo g p.id).length < 2 then
      let c1 := c + 1
      let supporters := (supportsTo g p.id).filterMap (fun r =>
        (g.get_proposition r.from_id).map (fun q => "\"" ++ q.statement ++ "\""))
      let item : Fallacy :=
        { id := "fallacy-hasty-" ++ toString c1
          name := "Hasty Generalization"
          description := "The claim \"" ++ p.statement ++
            "\" is stated with high confidence but is supported by only " ++
            toString (supportsTo g p.id).length ++ " piece(s) of evidence: " ++
            String.intercalate ", " supporters ++
            ". High-confidence conclusions typically require multiple independent lines of evidence. No counter-evidence has been considered."
          affected_node_ids := p.id :: (supportsTo g p.id).map (·.from_id)
          pattern_type := "hasty_generalization" }
      let r := fallacyHasty g c1 rest
      (r.1, item :: r.2)
    else fallacyHasty g c rest

/-- fallacy_detector.rs lines 88-126: claims with exactly two supporting
edges, no contradicts/attacks edges, and binary framing in a supporter;
the affected ids are the claim and the resolved supporters. -/
def fallacyDilemma (g : LogicalGraph) : Nat → List Proposition → Nat × List Fallacy
  | c, [] => (c, [])
  | c, p :: rest =>
    if (supportsTo g p.id).length = 2 ∧
        ((g.get_relationships_to p.id).filter (fun r =>
          r.rel_type = "contradicts" || r.rel_type = "attacks")) = [] ∧
        ((supportsTo g p.id).filterMap (fun r => g.get_proposition r.from_id)).any
          (fun s => ["or", "either", "only", "∨"].any (fun kw =>
            containsSub (strLower s.formal_expression) kw ||
            containsSub (strLower s.statement) kw)) then
      let c1 := c + 1
      let item : Fallacy :=
        { id := "fallacy-dilemma-" ++ toString c1
          name := "False Dilemma"
          description := "The claim \"" ++ p.statement ++
            "\" is presented as depending on exactly two options, with no alternatives considered. This binary framing may exclude viable middle-ground positions or alternative approaches."
          affected_node_ids := p.id ::
            ((supportsTo g p.id).filterMap (fun r => g.get_proposition r.from_id)).map (·.id)
          pattern_type := "false_dilemma" }
      let r := fallacyDilemma g c1 rest
      (r.1, item :: r.2)
    else fallacyDilemma g c rest

/-- fallacy_detector.rs lines 130-167: evidence mentioning an authority
keyword with zero incoming supporting edges. -/
def fallacyAuthority (g : LogicalGraph) : Nat → List Proposition → Nat × List Fallacy
  | c, [] => (c, [])
  | c, p :: rest =>
    if (["says", "according", "expert", "authority", "believes", "argues",
          "claims", "stated"].any (fun kw =>
        containsSub (strLower p.formal_expression) kw ||
        containsSub (strLower p.statement) kw)) ∧
        (supportsTo g p.id).length = 0 then
      let c1 := c + 1
      let item : Fallacy :=
        { id := "fallacy-authority-" ++ toString c1
          name := "Appeal to Authority"
          description := "The evidence \"" ++ p.statement ++
            "\" references an authority or source rather than providing independent logical justification. Authority-based evidence should be supplemented with verifiable data."
          affected_node_ids := [p.id]
          pattern_type := "appeal_to_authority" }
      let r := fallacyAuthority g c1 rest
      (r.1, item :: r.2)
    else fallacyAuthority g c rest

/-- fallacy_detector.rs `detect_fallacies`: the four patterns in order,
threading one shared counter. -/
def detect_fallacies (g : LogicalGraph) (cycles : List (List String)) : List Fallacy :=
  let f1 := fallacyCircular g 0 cycles
  let f2 := fallacyHasty g f1.1 (g.get_propositions_by_type "claim")
  let f3 := fallacyDilemma g f2.1 (g.get_propositions_by_type "claim")
  let f4 := fallacyAuthority g f3.1 (g.get_propositions_by_type "evidence")
  f1.2 ++ f2.2 ++ f3.2 ++ f4.2

/-! ### bias_detector.rs -/

/-- bias_detector.rs `severity_from_centrality`. -/
def severity_from_centrality (score : Option ℚ) : String :=
  match score with
  | some s => if s > 3/10 then "high" else if s > 1/10 then "medium" else "low"
  | none => "low"

/-- `centrality.get(&id)` over the association list standing for the
centrality HashMap. -/
def centGet (cent : List (String × ℚ)) (i : String) : Option ℚ :=
  (cent.find? (fun kv => kv.1 = i)).map (·.2)

/-- bias_detector.rs `extract_variables` character scanner state machine
(current word, in-parens flag, collected words); Unicode
`is_alphanumeric`/`is_lowercase` are modelled by the ASCII
`Char.isAlphanum`/`Char.isLower`. -/
def extractVarsGo : List Char → List Char → Bool → List String → List String
  | [], cw, inp, vars =>
    if cw ≠ [] ∧ (inp ∨ cw.contains '_' ∨ cw.all (fun c => c.isLower || c = '_')) then
      vars ++ [cw.asString]
    else vars
  | ch :: rest, cw, inp, vars =>
    if ch = '(' then extractVarsGo rest [] true vars
    else if ch = ')' then
      extractVarsGo rest (if cw ≠ [] ∧ inp then [] else cw) false
        (if cw ≠ [] ∧ inp then vars ++ [cw.asString] else vars)
    else if ch = ',' ∨ ch = ' ' then
      extractVarsGo rest (if cw ≠ [] ∧ inp then [] else cw) inp
        (if cw ≠ [] ∧ inp then vars ++ [cw.asString] else vars)
    else if ch.isAlphanum || ch = '_' then
      extractVarsGo rest (cw ++ [ch]) inp vars
    else
      extractVarsGo rest [] inp
        (if cw ≠ [] ∧ ¬ inp ∧
            (cw.contains '_' ∨ cw.all (fun c => c.isLower || c = '_')) then
          vars ++ [cw.asString]
        else vars)

/-- bias_detector.rs `extract_variables`: scan, sort, dedup, drop short
words and boolean operator words. -/
def extract_variables (expr : String) : List String :=
  (((List.insertionSort strOrd (extractVarsGo expr.data [] false [])).dedup).filter
    (fun v => 1 < v.length && !(["true", "false", "and", "or", "not"].contains v)))

/-- bias_detector.rs lines 19-57: anchoring — an assumption stated as
absolute with zero incoming supporting edges. -/
def biasAnchoring (g : LogicalGraph) (cent : List (String × ℚ)) :
    Nat → List Proposition → Nat × List CognitiveBias
  | c, [] => (c, [])
  | c, p :: rest =>
    if p.prop_type = "assumption" ∧ p.confidence = "unstated_as_absolute" ∧
        (supportsTo g p.id).length = 0 then
      let c1 := c + 1
      let item : CognitiveBias :=
        { id := "bias-anchoring-" ++ toString c1
          name := "Anchoring Effect"
          kahneman_reference := "Thinking, Fast and Slow, Chapter 11: Anchors"
          description := "The assumption \"" ++ p.statement ++
            "\" is stated as an absolute without any supporting evidence. This is a classic anchoring pattern: an initial value or belief is accepted by System 1 without verification, and all subsequent reasoning is adjusted relative to this anchor rather than being independently evaluated. " ++
            (if p.is_anchored then "This proposition has been flagged as an anchoring point."
             else "Consider what evidence would be needed to verify this assumption.")
          affected_node_ids := [p.id]
          severity := severity_from_centrality (centGet cent p.id)
          system := 1 }
      let r := biasAnchoring g cent c1 rest
      (r.1, item :: r.2)
    else biasAnchoring g cent c rest

/-- bias_detector.rs lines 63-106: confirmation bias — a claim with some
incoming edge, at least two supports and zero contradicts/attacks; the
affected ids chain the raw `from_id`s of the supporting edges. -/
def biasConfirmation (g : LogicalGraph) (cent : List (String × ℚ)) :
    Nat → List Proposition → Nat × List CognitiveBias
  | c, [] => (c, [])
  | c, p :: rest =>
    if (g.get_relationships_to p.id) ≠ [] ∧
        2 ≤ (supportsTo g p.id).length ∧
        ((g.get_relationships_to p.id).filter (fun r =>
          r.rel_type = "contradicts" || r.rel_type = "attacks")).length = 0 then
      let c1 := c + 1
      let item : CognitiveBias :=
        { id := "bias-confirmation-" ++ toString c1
          name := "Confirmation Bias"
          kahneman_reference := "Thinking, Fast and Slow, Chapter 7: A Machine for Jumping to Conclusions"
          description := "The claim \"" ++ p.statement ++ "\" has " ++
            toString (supportsTo g p.id).length ++
            " supporting pieces of evidence but zero contradicting or challenging inputs. This one-sided evidence pattern suggests confirmation bias: the reasoner sought only evidence that supports their conclusion and did not actively look for counter-evidence. A robust argument should include and address opposing viewpoints."
          affected_node_ids := p.id :: (supportsTo g p.id).map (·.from_id)
          severity := severity_from_centrality (centGet cent p.id)
          system := 1 }
      let r := biasConfirmation g cent c1 rest
      (r.1, item :: r.2)
    else biasConfirmation g cent c rest

/-- The subjective-term keyword list of bias_detector.rs lines 111-114. -/
def subjectiveIndicators : List String :=
  ["feels", "seems", "looks like", "appears", "intuition",
   "gut", "sense", "impression", "vibe"]

/-- bias_detector.rs lines 116-152: availability heuristic — evidence of
high/medium confidence using a subjective term. -/
def biasAvailability (g : LogicalGraph) (cent : List (String × ℚ)) :
    Nat → List Proposition → Nat × List CognitiveBias
  | c, [] => (c, [])
  | c, p :: rest =>
    if (subjectiveIndicators.any (fun kw =>
          containsSub (strLower p.statement) kw ||
          containsSub (strLower p.formal_expression) kw)) ∧
        (p.confidence = "high" ∨ p.confidence = "medium") then
      let c1 := c + 1
      let trigger := (subjectiveIndicators.find? (fun kw =>
        containsSub (strLower p.statement) kw ||
        containsSub (strLower p.formal_expression) kw)).getD "subjective language"
      let item : CognitiveBias :=
        { id := "bias-availability-" ++ toString c1
          name := "Availability Heuristic"
          kahneman_reference := "Thinking, Fast and Slow, Chapter 12: The Science of Availability"
          description := "The evidence \"" ++ p.statement ++
            "\" uses the subjective term \"" ++ trigger ++
            "\" which suggests a System 1 judgment based on what is easily available in memory rather than systematic analysis. Vivid, recent, or emotionally salient information is being treated as representative data. This evidence should be supplemented with objective measurements."
          affected_node_ids := [p.id]
          severity := severity_from_centrality (centGet cent p.id)
          system := 1 }
      let r := biasAvailability g cent c1 rest
      (r.1, item :: r.2)
    else biasAvailability g cent c rest

/-- bias_detector.rs lines 157-205: planning fallacy — a load-bearing
high-confidence claim with no outgoing depends_on/assumes edge and no
incoming edge from a constraint or risk proposition. -/
def biasPlanning (g : LogicalGraph) (cent : List (String × ℚ)) :
    Nat → List Proposition → Nat × List CognitiveBias
  | c, [] => (c, [])
  | c, p :: rest =>
    if p.is_load_bearing ∧
        ((g.get_relationships_from p.id).filter (fun r =>
          r.rel_type = "depends_on" || r.rel_type = "assumes")).length = 0 ∧
        p.confidence = "high" ∧
        ¬ ((g.get_relationships_to p.id).any (fun r =>
          ((g.get_proposition r.from_id).map (fun q =>
            (q.prop_type = "constraint" || q.prop_type = "risk" : Bool))).getD false)) then
      let c1 := c + 1
      let item : CognitiveBias :=
        { id := "bias-planning-" ++ toString c1
          name := "Planning Fallacy"
          kahneman_reference := "Thinking, Fast and Slow, Chapter 23: The Outside View"
          description := "The claim \"" ++ p.statement ++
            "\" is load-bearing and stated with high confidence, but has no decomposition into sub-tasks, dependencies, or constraints. This is a hallmark of the Planning Fallacy: overly optimistic planning that fails to account for the complexity of execution. Consider breaking this into concrete, measurable sub-goals."
          affected_node_ids := [p.id]
          severity := severity_from_centrality (centGet cent p.id)
          system := 1 }
      let r := biasPlanning g cent c1 rest
      (r.1, item :: r.2)
    else biasPlanning g cent c rest

/-- bias_detector.rs lines 223-260: the inner supporter loop of the
attribute-substitution detector, for one claim `p`. -/
def biasSubstOne (cent : List (String × ℚ)) (p : Proposition)
    (claim_vars : List String) :
    Nat → List Proposition → Nat × List CognitiveBias
  | c, [] => (c, [])
  | c, ev :: rest =>
    if extract_variables ev.formal_expression ≠ [] ∧
        (claim_vars.filter (fun v => v ∈ extract_variables ev.formal_expression)) = [] then
      let c1 := c + 1
      let item : CognitiveBias :=
        { id := "bias-substitution-" ++ toString c1
          name := "Attribute Substitution"
          kahneman_reference := "Thinking, Fast and Slow, Chapter 9: Answering an Easier Question"
          description := "The claim \"" ++ p.statement ++ "\" appears to be about [" ++
            String.intercalate ", " claim_vars ++ "], but the supporting evidence \"" ++
            ev.statement ++ "\" measures [" ++
            String.intercalate ", " (extract_variables ev.formal_expression) ++
            "]. System 1 may be substituting an easy-to-measure proxy for the actual question being asked. Verify that the evidence directly addresses the claim's core variable."
          affected_node_ids := [p.id, ev.id]
          severity := severity_from_centrality (centGet cent p.id)
          system := 1 }
      let r := biasSubstOne cent p claim_vars c1 rest
      (r.1, item :: r.2)
    else biasSubstOne cent p claim_vars c rest

/-- bias_detector.rs lines 210-261: attribute substitution — claims whose
resolved supporters measure disjoint variables. -/
def biasSubstitution (g : LogicalGraph) (cent : List (String × ℚ)) :
    Nat → List Proposition → Nat × List CognitiveBias
  | c, [] => (c, [])
  | c, p :: rest =>
    if extract_variables p.formal_expression ≠ [] then
      let inner := biasSubstOne cent p (extract_variables p.formal_expression) c
        ((supportsTo g p.id).filterMap (fun r => g.get_proposition r.from_id))
      let r := biasSubstitution g cent inner.1 rest
      (r.1, inner.2 ++ r.2)
    else biasSubstitution g cent c rest

/-- bias_detector.rs `detect_biases`: the five detectors in order,
threading one shared counter. -/
def detect_biases (g : LogicalGraph) (cent : List (String × ℚ)) : List CognitiveBias :=
  let b1 := biasAnchoring g cent 0 g.propositions
  let b2 := biasConfirmation g cent b1.1 (g.get_propositions_by_type "claim")
  let b3 := biasAvailability g cent b2.1 (g.get_propositions_by_type "evidence")
  let b4 := biasPlanning g cent b3.1 (g.get_propositions_by_type "claim")
  let b5 := biasSubstitution g cent b4.1 (g.get_propositions_by_type "claim")
  b1.2 ++ b2.2 ++ b3.2 ++ b4.2 ++ b5.2

/-- Every edge endpoint refers to a listed proposition (the caller
guarantee of spec section 8). -/
def WellFormed (g : LogicalGraph) : Prop :=
  ∀ r ∈ g.relationships, r.from_id ∈ propIds g ∧ r.to_id ∈ propIds g

theorem get_proposition_mem (g : LogicalGraph) (i : String) (p : Proposition)
    (h : g.get_proposition i = some p) : p ∈ g.propositions ∧ p.id = i := by
  unfold LogicalGraph.get_proposition at h
  refine ⟨List.mem_of_find?_eq_some h, ?_⟩
  have := List.find?_some h
  simpa using this

theorem get_relationships_to_sub (g : LogicalGraph) (i : String) (r : Relationship)
    (h : r ∈ g.get_relationships_to i) : r ∈ g.relationships :=
  List.mem_of_mem_filter h

theorem supportsTo_sub (g : LogicalGraph) (i : String) (r : Relationship)
    (h : r ∈ supportsTo g i) : r ∈ g.relationships :=
  List.mem_of_mem_filter (List.mem_of_mem_filter h)

theorem mem_propIds (g : LogicalGraph) (p : Proposition)
    (h : p ∈ g.propositions) : p.id ∈ propIds g :=
  List.mem_map_of_mem _ h

theorem listPairs_mem {α : Type} : ∀ (l : List α), ∀ q ∈ listPairs l,
    q.1 ∈ l ∧ q.2 ∈ l := by
  intro l
  induction l with
  | nil => intro q hq; simp [listPairs] at hq
  | cons x rest ih =>
    intro q hq
    simp only [listPairs, List.mem_append, List.mem_map] at hq
    rcases hq with ⟨y, hy, heq⟩ | hq
    · rw [← heq]
      exact ⟨List.mem_cons_self x rest, List.mem_cons_of_mem _ hy⟩
    · obtain ⟨h1, h2⟩ := ih q hq
      exact ⟨List.mem_cons_of_mem _ h1, List.mem_cons_of_mem _ h2⟩

theorem numericProps_mem (g : LogicalGraph) : ∀ q ∈ numericProps g,
    q.1 ∈ g.propositions := by
  intro q hq
  unfold numericProps at hq
  obtain ⟨p, hp, he⟩ := List.mem_filterMap.mp hq
  cases ho : (match extract_numeric_value p.formal_expression with
      | some v => some v
      | none => extract_numeric_value p.statement) with
  | none => rw [ho] at he; cases he
  | some v =>
    rw [ho] at he
    simp only [Option.map_some'] at he
    cases he
    exact hp

theorem strat1_closed (g : LogicalGraph) : ∀ (l : List Relationship) (c : Nat),
    ∀ x ∈ (strat1 g c l).2, ∀ i ∈ x.proposition_ids, i ∈ propIds g := by
  intro l
  induction l with
  | nil => intro c x hx; simp [strat1] at hx
  | cons rel rest ih =>
    intro c x hx
    by_cases hc : rel.rel_type = "contradicts"
    · cases hf : g.get_proposition rel.from_id with
      | none =>
        simp only [strat1, if_pos hc, hf] at hx
        exact ih c x hx
      | some fp =>
        cases ht : g.get_proposition rel.to_id with
        | none =>
          simp only [strat1, if_pos hc, hf, ht] at hx
          exact ih c x hx
        | some tp2 =>
          simp only [strat1, if_pos hc, hf, ht, List.mem_cons] at hx
          rcases hx with rfl | hx
          · intro i hi
            simp only [List.mem_cons, List.not_mem_nil, or_false] at hi
            obtain ⟨hfm, hfi⟩ := get_proposition_mem g rel.from_id fp hf
            obtain ⟨htm, hti⟩ := get_proposition_mem g rel.to_id tp2 ht
            rcases hi with rfl | rfl
            · exact List.mem_map.mpr ⟨fp, hfm, hfi⟩
            · exact List.mem_map.mpr ⟨tp2, htm, hti⟩
          · exact ih (c + 1) x hx
    · simp only [strat1, if_neg hc] at hx
      exact ih c x hx

theorem strat2_closed (g : LogicalGraph) : ∀ (l : List (Proposition × Proposition)) (c : Nat),
    (∀ q ∈ l, q.1 ∈ g.propositions ∧ q.2 ∈ g.propositions) →
    ∀ x ∈ (strat2 c l).2, ∀ i ∈ x.proposition_ids, i ∈ propIds g := by
  intro l
  induction l with
  | nil => intro c _ x hx; simp [strat2] at hx
  | cons ab rest ih =>
    intro c hl x hx
    obtain ⟨a, b⟩ := ab
    cases hd : detect_temporal_conflict a b with
    | none =>
      simp only [strat2, hd] at hx
      exact ih c (fun q hq => hl q (List.mem_cons_of_mem _ hq)) x hx
    | some expl =>
      simp only [strat2, hd, List.mem_cons] at hx
      rcases hx with rfl | hx
      · intro i hi
        simp only [List.mem_cons, List.not_mem_nil, or_false] at hi
        obtain ⟨ha, hb⟩ := hl (a, b) (List.mem_cons_self _ _)
        rcases hi with rfl | rfl
        · exact mem_propIds g a ha
        · exact mem_propIds g b hb
      · exact ih (c + 1) (fun q hq => hl q (List.mem_cons_of_mem _ hq)) x hx

theorem strat3_closed (g : LogicalGraph) : ∀ (l : List (Proposition × Proposition)) (c : Nat),
    (∀ q ∈ l, q.1 ∈ g.propositions ∧ q.2 ∈ g.propositions) →
    ∀ x ∈ (strat3 c l).2, ∀ i ∈ x.proposition_ids, i ∈ propIds g := by
  intro l
  induction l with
  | nil => intro c _ x hx; simp [strat3] at hx
  | cons ab rest ih =>
    intro c hl x hx
    obtain ⟨a, b⟩ := ab
    cases hd : detect_logical_conflict a b with
    | none =>
      simp only [strat3, hd] at hx
      exact ih c (fun q hq => hl q (List.mem_cons_of_mem _ hq)) x hx
    | some expl =>
      simp only [strat3, hd, List.mem_cons] at hx
      rcases hx with rfl | hx
      · intro i hi
        simp only [List.mem_cons, List.not_mem_nil, or_false] at hi
        obtain ⟨ha, hb⟩ := hl (a, b) (List.mem_cons_self _ _)
        rcases hi with rfl | rfl
        · exact mem_propIds g a ha
        · exact mem_propIds g b hb
      · exact ih (c + 1) (fun q hq => hl q (List.mem_cons_of_mem _ hq)) x hx

theorem strat4_closed (g : LogicalGraph) (nums : List (Proposition × ℚ))
    (hn : ∀ q ∈ nums, q.1 ∈ g.propositions) :
    ∀ (l : List Proposition) (c : Nat), (∀ p ∈ l, p ∈ g.propositions) →
    ∀ x ∈ (strat4 g nums c l).2, ∀ i ∈ x.proposition_ids, i ∈ propIds g := by
  intro l
  induction l with
  | nil => intro c _ x hx; simp [strat4] at hx
  | cons p rest ih =>
    intro c hl x hx
    by_cases h1 : p.prop_type = "assumption" ∧
        (containsSub p.formal_expression "≥" || containsSub p.formal_expression ">=" ||
          containsSub (strLower p.statement) "sufficient") = true
    · by_cases h2 : (nums.filter (fun q => q.1.id ∈
          ((g.get_relationships_from p.id).map (·.to_id) ++
            (g.get_relationships_to p.id).map (·.from_id)))).length ≥ 2
      · simp only [strat4, if_pos h1, if_pos h2, List.mem_cons] at hx
        rcases hx with rfl | hx
        · intro i hi
          simp only [List.mem_cons] at hi
          rcases hi with rfl | hi
          · exact mem_propIds g p (hl p (List.mem_cons_self _ _))
          · obtain ⟨q, hq, hqi⟩ := List.mem_map.mp hi
            exact hqi ▸ mem_propIds g q.1 (hn q (List.mem_of_mem_filter hq))
        · exact ih (c + 1) (fun r hr => hl r (List.mem_cons_of_mem _ hr)) x hx
      · simp only [strat4, if_pos h1, if_neg h2] at hx
        exact ih c (fun r hr => hl r (List.mem_cons_of_mem _ hr)) x hx
    · simp only [strat4, if_neg h1] at hx
      exact ih c (fun r hr => hl r (List.mem_cons_of_mem _ hr)) x hx

theorem detect_contradictions_closed (g : LogicalGraph) :
    ∀ x ∈ detect_contradictions g, ∀ i ∈ x.proposition_ids, i ∈ propIds g := by
  intro x hx
  unfold detect_contradictions at hx
  simp only [List.mem_append] at hx
  rcases hx with ((h1 | h2) | h3) | h4
  · exact strat1_closed g _ _ x h1
  · refine strat2_closed g _ _ ?_ x h2
    intro q hq
    obtain ⟨ha, hb⟩ := listPairs_mem _ q hq
    exact ⟨List.mem_of_mem_filter ha, List.mem_of_mem_filter hb⟩
  · refine strat3_closed g _ _ ?_ x h3
    intro q hq
    exact listPairs_mem _ q hq
  · exact strat4_closed g _ (numericProps_mem g) _ _ (fun p hp => hp) x h4

theorem fallacyCircular_closed (g : LogicalGraph) :
    ∀ (l : List (List String)) (c : Nat), (∀ cy ∈ l, ∀ v ∈ cy, v ∈ propIds g) →
    ∀ f ∈ (fallacyCircular g c l).2, ∀ i ∈ f.affected_node_ids, i ∈ propIds g := by
  intro l
  induction l with
  | nil => intro c _ f hf; simp [fallacyCircular] at hf
  | cons cy rest ih =>
    intro c hl f hf
    simp only [fallacyCircular, List.mem_cons] at hf
    rcases hf with rfl | hf
    · exact hl cy (List.mem_cons_self _ _)
    · exact ih (c + 1) (fun cy2 h2 => hl cy2 (List.mem_cons_of_mem _ h2)) f hf

theorem fallacyHasty_closed (g : LogicalGraph) (hw : WellFormed g) :
    ∀ (l : List Proposition) (c : Nat), (∀ p ∈ l, p ∈ g.propositions) →
    ∀ f ∈ (fallacyHasty g c l).2, ∀ i ∈ f.affected_node_ids, i ∈ propIds g := by
  intro l
  induction l with
  | nil => intro c _ f hf; simp [fallacyHasty] at hf
  | cons p rest ih =>
    intro c hl f hf
    by_cases hc : p.confidence = "high" ∧ 0 < (supportsTo g p.id).length ∧
        (supportsTo g p.id).length < 2
    · simp only [fallacyHasty, if_pos hc, List.mem_cons] at hf
      rcases hf with rfl | hf
      · intro i hi
        simp only [List.mem_cons] at hi
        rcases hi with rfl | hi
        · exact mem_propIds g p (hl p (List.mem_cons_self _ _))
        · obtain ⟨r, hr, hri⟩ := List.mem_map.mp hi
          exact hri ▸ (hw r (supportsTo_sub g p.id r hr)).1
      · exact ih (c + 1) (fun q hq => hl q (List.mem_cons_of_mem _ hq)) f hf
    · simp only [fallacyHasty, if_neg hc] at hf
      exact ih c (fun q hq => hl q (List.mem_cons_of_mem _ hq)) f hf

theorem fallacyDilemma_closed (g : LogicalGraph) :
    ∀ (l : List Proposition) (c : Nat), (∀ p ∈ l, p ∈ g.propositions) →
    ∀ f ∈ (fallacyDilemma g c l).2, ∀ i ∈ f.affected_node_ids, i ∈ propIds g := by
  intro l
  induction l with
  | nil => intro c _ f hf; simp [fallacyDilemma] at hf
  | cons p rest ih =>
    intro c hl f hf
    by_cases hc : (supportsTo g p.id).length = 2 ∧
        ((g.get_relationships_to p.id).filter (fun r =>
          r.rel_type = "contradicts" || r.rel_type = "attacks")) = [] ∧
        ((supportsTo g p.id).filterMap (fun r => g.get_proposition r.from_id)).any
          (fun s => ["or", "either", "only", "∨"].any (fun kw =>
            containsSub (strLower s.formal_expression) kw ||
            containsSub (strLower s.statement) kw)) = true
    · simp only [fallacyDilemma, if_pos hc, List.mem_cons] at hf
      rcases hf with rfl | hf
      · intro i hi
        simp only [List.mem_cons] at hi
        rcases hi with rfl | hi
        · exact mem_propIds g p (hl p (List.mem_cons_self _ _))
        · obtain ⟨q, hq, hqi⟩ := List.mem_map.mp hi
          obtain ⟨r, _, hrq⟩ := List.mem_filterMap.mp hq
          exact hqi ▸ mem_propIds g q (get_proposition_mem g r.from_id q hrq).1
      · exact ih (c + 1) (fun q hq => hl q (List.mem_cons_of_mem _ hq)) f hf
    · simp only [fallacyDilemma, if_neg hc] at hf
      exact ih c (fun q hq => hl q (List.mem_cons_of_mem _ hq)) f hf

theorem fallacyAuthority_closed (g : LogicalGraph) :
    ∀ (l : List Proposition) (c : Nat), (∀ p ∈ l, p ∈ g.propositions) →
    ∀ f ∈ (fallacyAuthority g c l).2, ∀ i ∈ f.affected_node_ids, i ∈ propIds g := by
  intro l
  induction l with
  | nil => intro c _ f hf; simp [fallacyAuthority] at hf
  | cons p rest ih =>
    intro c hl f hf
    by_cases hc : (["says", "according", "expert", "authority", "believes", "argues",
          "claims", "stated"].any (fun kw =>
        containsSub (strLower p.formal_expression) kw ||
        containsSub (strLower p.statement) kw)) = true ∧
        (supportsTo g p.id).length = 0
    · simp only [fallacyAuthority, if_pos hc, List.mem_cons] at hf
      rcases hf with rfl | hf
      · intro i hi
        simp only [List.mem_cons, List.not_mem_nil, or_false] at hi
        subst hi
        exact mem_propIds g p (hl p (List.mem_cons_self _ _))
      · exact ih (c + 1) (fun q hq => hl q (List.mem_cons_of_mem _ hq)) f hf
    · simp only [fallacyAuthority, if_neg hc] at hf
      exact ih c (fun q hq => hl q (List.mem_cons_of_mem _ hq)) f hf

theorem detect_fallacies_closed (g : LogicalGraph) (hw : WellFormed g)
    (cycles : List (List String)) (hcy : ∀ cy ∈ cycles, ∀ v ∈ cy, v ∈ propIds g) :
    ∀ f ∈ detect_fallacies g cycles, ∀ i ∈ f.affected_node_ids, i ∈ propIds g := by
  intro f hf
  unfold detect_fallacies at hf
  simp only [List.mem_append] at hf
  have hsub : ∀ t, ∀ p ∈ g.get_propositions_by_type t, p ∈ g.propositions :=
    fun t p hp => List.mem_of_mem_filter hp
  rcases hf with ((h1 | h2) | h3) | h4
  · exact fallacyCircular_closed g _ _ hcy f h1
  · exact fallacyHasty_closed g hw _ _ (hsub "claim") f h2
  · exact fallacyDilemma_closed g _ _ (hsub "claim") f h3
  · exact fallacyAuthority_closed g _ _ (hsub "evidence") f h4

theorem biasAnchoring_closed (g : LogicalGraph) (cent : List (String × ℚ)) :
    ∀ (l : List Proposition) (c : Nat), (∀ p ∈ l, p ∈ g.propositions) →
    ∀ b ∈ (biasAnchoring g cent c l).2, ∀ i ∈ b.affected_node_ids, i ∈ propIds g := by
  intro l
  induction l with
  | nil => intro c _ b hb; simp [biasAnchoring] at hb
  | cons p rest ih =>
    intro c hl b hb
    by_cases hc : p.prop_type = "assumption" ∧ p.confidence = "unstated_as_absolute" ∧
        (supportsTo g p.id).length = 0
    · simp only [biasAnchoring, if_pos hc, List.mem_cons] at hb
      rcases hb with rfl | hb
      · intro i hi
        simp only [List.mem_cons, List.not_mem_nil, or_false] at hi
        subst hi
        exact mem_propIds g p (hl p (List.mem_cons_self _ _))
      · exact ih (c + 1) (fun q hq => hl q (List.mem_cons_of_mem _ hq)) b hb
    · simp only [biasAnchoring, if_neg hc] at hb
      exact ih c (fun q hq => hl q (List.mem_cons_of_mem _ hq)) b hb

theorem biasConfirmation_closed (g : LogicalGraph) (cent : List (String × ℚ))
    (hw : WellFormed g) :
    ∀ (l : List Proposition) (c : Nat), (∀ p ∈ l, p ∈ g.propositions) →
    ∀ b ∈ (biasConfirmation g cent c l).2, ∀ i ∈ b.affected_node_ids, i ∈ propIds g := by
  intro l
  induction l with
  | nil => intro c _ b hb; simp [biasConfirmation] at hb
  | cons p rest ih =>
    intro c hl b hb
    by_cases hc : (g.get_relationships_to p.id) ≠ [] ∧
        2 ≤ (supportsTo g p.id).length ∧
        ((g.get_relationships_to p.id).filter (fun r =>
          r.rel_type = "contradicts" || r.rel_type = "attacks")).length = 0
    · simp only [biasConfirmation, if_pos hc, List.mem_cons] at hb
      rcases hb with rfl | hb
      · intro i hi
        simp only [List.mem_cons] at hi
        rcases hi with rfl | hi
        · exact mem_propIds g p (hl p (List.mem_cons_self _ _))
        · obtain ⟨r, hr, hri⟩ := List.mem_map.mp hi
          exact hri ▸ (hw r (supportsTo_sub g p.id r hr)).1
      · exact ih (c + 1) (fun q hq => hl q (List.mem_cons_of_mem _ hq)) b hb
    · simp only [biasConfirmation, if_neg hc] at hb
      exact ih c (fun q hq => hl q (List.mem_cons_of_mem _ hq)) b hb

theorem biasAvailability_closed (g : LogicalGraph) (cent : List (String × ℚ)) :
    ∀ (l : List Proposition) (c : Nat), (∀ p ∈ l, p ∈ g.propositions) →
    ∀ b ∈ (biasAvailability g cent c l).2, ∀ i ∈ b.affected_node_ids, i ∈ propIds g := by
  intro l
  induction l with
  | nil => intro c _ b hb; simp [biasAvailability] at hb
  | cons p rest ih =>
    intro c hl b hb
    by_cases hc : (subjectiveIndicators.any (fun kw =>
          containsSub (strLower p.statement) kw ||
          containsSub (strLower p.formal_expression) kw)) = true ∧
        (p.confidence = "high" ∨ p.confidence = "medium")
    · simp only [biasAvailability, if_pos hc, List.mem_cons] at hb
      rcases hb with rfl | hb
      · intro i hi
        simp only [List.mem_cons, List.not_mem_nil, or_false] at hi
        subst hi
        exact mem_propIds g p (hl p (List.mem_cons_self _ _))
      · exact ih (c + 1) (fun q hq => hl q (List.mem_cons_of_mem _ hq)) b hb
    · simp only [biasAvailability, if_neg hc] at hb
      exact ih c (fun q hq => hl q (List.mem_cons_of_mem _ hq)) b hb

theorem biasPlanning_closed (g : LogicalGraph) (cent : List (String × ℚ)) :
    ∀ (l : List Proposition) (c : Nat), (∀ p ∈ l, p ∈ g.propositions) →
    ∀ b ∈ (biasPlanning g cent c l).2, ∀ i ∈ b.affected_node_ids, i ∈ propIds g := by
  intro l
  induction l with
  | nil => intro c _ b hb; simp [biasPlanning] at hb
  | cons p rest ih =>
    intro c hl b hb
    by_cases hc : p.is_load_bearing = true ∧
        ((g.get_relationships_from p.id).filter (fun r =>
          r.rel_type = "depends_on" || r.rel_type = "assumes")).length = 0 ∧
        p.confidence = "high" ∧
        ¬ ((g.get_relationships_to p.id).any (fun r =>
          ((g.get_proposition r.from_id).map (fun q =>
            (q.prop_type = "constraint" || q.prop_type = "risk" : Bool))).getD false)) = true
    · simp only [biasPlanning, if_pos hc, List.mem_cons] at hb
      rcases hb with rfl | hb
      · intro i hi
        simp only [List.mem_cons, List.not_mem_nil, or_false] at hi
        subst hi
        exact mem_propIds g p (hl p (List.mem_cons_self _ _))
      · exact ih (c + 1) (fun q hq => hl q (List.mem_cons_of_mem _ hq)) b hb
    · simp only [biasPlanning, if_neg hc] at hb
      exact ih c (fun q hq => hl q (List.mem_cons_of_mem _ hq)) b hb

theorem biasSubstOne_closed (g : LogicalGraph) (cent : List (String × ℚ))
    (p : Proposition) (cv : List String) (hp : p ∈ g.propositions) :
    ∀ (l : List Proposition) (c : Nat), (∀ e ∈ l, e ∈ g.propositions) →
    ∀ b ∈ (biasSubstOne cent p cv c l).2, ∀ i ∈ b.affected_node_ids, i ∈ propIds g := by
  intro l
  induction l with
  | nil => intro c _ b hb; simp [biasSubstOne] at hb
  | cons ev rest ih =>
    intro c hl b hb
    by_cases hc : extract_variables ev.formal_expression ≠ [] ∧
        (cv.filter (fun v => v ∈ extract_variables ev.formal_expression)) = []
    · simp only [biasSubstOne, if_pos hc, List.mem_cons] at hb
      rcases hb with rfl | hb
      · intro i hi
        simp only [List.mem_cons, List.not_mem_nil, or_false] at hi
        rcases hi with rfl | rfl
        · exact mem_propIds g p hp
        · exact mem_propIds g ev (hl ev (List.mem_cons_self _ _))
      · exact ih (c + 1) (fun q hq => hl q (List.mem_cons_of_mem _ hq)) b hb
    · simp only [biasSubstOne, if_neg hc] at hb
      exact ih c (fun q hq => hl q (List.mem_cons_of_mem _ hq)) b hb

theorem biasSubstitution_closed (g : LogicalGraph) (cent : List (String × ℚ)) :
    ∀ (l : List Proposition) (c : Nat), (∀ p ∈ l, p ∈ g.propositions) →
    ∀ b ∈ (biasSubstitution g cent c l).2, ∀ i ∈ b.affected_node_ids, i ∈ propIds g := by
  intro l
  induction l with
  | nil => intro c _ b hb; simp [biasSubstitution] at hb
  | cons p rest ih =>
    intro c hl b hb
    by_cases hc : extract_variables p.formal_expression ≠ []
    · simp only [biasSubstitution, if_pos hc, List.mem_append] at hb
      rcases hb with hb | hb
      · refine biasSubstOne_closed g cent p _ (hl p (List.mem_cons_self _ _)) _ _ ?_ b hb
        intro e he
        obtain ⟨r, _, hre⟩ := List.mem_filterMap.mp he
        exact (get_proposition_mem g r.from_id e hre).1
      · exact ih _ (fun q hq => hl q (List.mem_cons_of_mem _ hq)) b hb
    · simp only [biasSubstitution, if_neg hc] at hb
      exact ih c (fun q hq => hl q (List.mem_cons_of_mem _ hq)) b hb

theorem detect_biases_closed (g : LogicalGraph) (cent : List (String × ℚ))
    (hw : WellFormed g) :
    ∀ b ∈ detect_biases g cent, ∀ i ∈ b.affected_node_ids, i ∈ propIds g := by
  intro b hb
  unfold detect_biases at hb
  simp only [List.mem_append] at hb
  have hsub : ∀ t, ∀ p ∈ g.get_propositions_by_type t, p ∈ g.propositions :=
    fun t p hp => List.mem_of_mem_filter hp
  rcases hb with (((h1 | h2) | h3) | h4) | h5
  · exact biasAnchoring_closed g cent _ _ (fun p hp => hp) b h1
  · exact biasConfirmation_closed g cent hw _ _ (hsub "claim") b h2
  · exact biasAvailability_closed g cent _ _ (hsub "evidence") b h3
  · exact biasPlanning_closed g cent _ _ (hsub "claim") b h4
  · exact biasSubstitution_closed g cent _ _ (hsub "claim") b h5

/-- CLAIM C6 (amended): on a well-formed graph — every edge endpoint
refers to a listed proposition — every id in any emitted cycle,
contradiction, fallacy or bias refers to a listed proposition; the
cycle and contradiction parts hold for every graph. -/
theorem claim_C6_ids_closed (g : LogicalGraph) (hw : WellFormed g)
    (cent : List (String × ℚ)) :
    (∀ c ∈ detect_cycles g, ∀ v ∈ c, v ∈ propIds g) ∧
    (∀ x ∈ detect_contradictions g, ∀ i ∈ x.proposition_ids, i ∈ propIds g) ∧
    (∀ f ∈ detect_fallacies g (detect_cycles g), ∀ i ∈ f.affected_node_ids,
      i ∈ propIds g) ∧
    (∀ b ∈ detect_biases g cent, ∀ i ∈ b.affected_node_ids, i ∈ propIds g) := by
  refine ⟨?_, detect_contradictions_closed g, ?_, detect_biases_closed g cent hw⟩
  · intro c hc
    exact (detect_cycles_sound g c hc).2
  · exact detect_fallacies_closed g hw _ (fun cy hcy => (detect_cycles_sound g cy hcy).2)

/-- A graph with a dangling supporter: one high-confidence claim `C1`
and a supports edge from the unlisted id `X`. -/
def gBad : LogicalGraph :=
  ⟨[⟨"C1", "s C1", "e C1", "claim", "high", false, false, false⟩],
   [sampleRel "r1" "X" "C1" "supports"]⟩

/-- Counterexample to the unconditional reading of C6: on `gBad` the
hasty-generalization detector emits the dangling supporter id `X`
(taken raw from the edge's `from_id`) even though no proposition `X`
exists. -/
theorem claim_C6_counterexample :
    (detect_fallacies gBad (detect_cycles gBad)).map (·.affected_node_ids) =
      [["C1", "X"]] ∧
    "X" ∉ propIds gBad :=
  ⟨rfl, by decide⟩

/-- Witness for C6 on the chain graph, whose edges are all well-formed. -/
theorem claim_C6_ids_closed_witness :
    (∀ c ∈ detect_cycles gChain, ∀ v ∈ c, v ∈ propIds gChain) ∧
    (∀ x ∈ detect_contradictions gChain, ∀ i ∈ x.proposition_ids, i ∈ propIds gChain) ∧
    (∀ f ∈ detect_fallacies gChain (detect_cycles gChain), ∀ i ∈ f.affected_node_ids,
      i ∈ propIds gChain) ∧
    (∀ b ∈ detect_biases gChain [], ∀ i ∈ b.affected_node_ids, i ∈ propIds gChain) :=
  claim_C6_ids_closed gChain (by unfold WellFormed; decide) []

/-! ### lib.rs: the analysis entry point -/

/-- lib.rs `analyze_native` lines 24-39: the full pipeline on a decoded
graph, with the in-degree hash-map enumeration `enum` made explicit. -/
def analyzeGraphSeed (g : LogicalGraph) (enum : List String) : AnalysisResult :=
  { contradictions := detect_contradictions g
    fallacies := detect_fallacies g (detect_cycles g)
    biases := detect_biases g (betweenness_centrality g)
    argument_scores := score_arguments g (detect_contradictions g) (betweenness_centrality g)
    cycles := detect_cycles g
    topological_order := topological_sort_seed g enum }

/-- lib.rs `analyze_native`, with serde's decode and encode stages
abstracted as the parameters `dec` and `enc` (serde_json's code lives
outside this crate) and the hash-map enumeration made explicit: a decode
failure is wrapped as `Parse error: `, an encode failure as
`Serialize error: `. -/
def analyze_native (dec : String → Except String LogicalGraph)
    (enc : AnalysisResult → Except String String)
    (enum : LogicalGraph → List String) (input : String) : Except String String :=
  match dec input with
  | .error e => .error ("Parse error: " ++ e)
  | .ok g =>
    match enc (analyzeGraphSeed g (enum g)) with
    | .error e => .error ("Serialize error: " ++ e)
    | .ok s => .ok s

/-- CLAIM C8: `analyze_native` fails exactly when decoding or encoding
fails: a decode failure yields `Parse error: ...` (no analysis is run on
a partial graph — the error is produced before any pass), an encode
failure yields `Serialize error: ...`, a successful decode and encode
yields `Ok` of the serialized full report, and every error is of one of
the two shapes. -/
theorem claim_C8_analyze_native (dec : String → Except String LogicalGraph)
    (enc : AnalysisResult → Except String String)
    (enum : LogicalGraph → List String) (input : String) :
    (∀ e, dec input = .error e →
      analyze_native dec enc enum input = .error ("Parse error: " ++ e)) ∧
    (∀ g, dec input = .ok g →
      (∀ e, enc (analyzeGraphSeed g (enum g)) = .error e →
        analyze_native dec enc enum input = .error ("Serialize error: " ++ e)) ∧
      (∀ s, enc (analyzeGraphSeed g (enum g)) = .ok s →
        analyze_native dec enc enum input = .ok s)) ∧
    (∀ out, analyze_native dec enc enum input = .ok out →
      ∃ g, dec input = .ok g ∧ enc (analyzeGraphSeed g (enum g)) = .ok out) ∧
    (∀ e, analyze_native dec enc enum input = .error e →
      (∃ e2, dec input = .error e2 ∧ e = "Parse error: " ++ e2) ∨
      (∃ g e2, dec input = .ok g ∧ enc (analyzeGraphSeed g (enum g)) = .error e2 ∧
        e = "Serialize error: " ++ e2)) := by
  refine ⟨?_, ?_, ?_, ?_⟩
  · intro e he
    unfold analyze_native
    rw [he]
  · intro g hg
    constructor
    · intro e he
      unfold analyze_native
      rw [hg]
      dsimp only
      rw [he]
    · intro s hs
      unfold analyze_native
      rw [hg]
      dsimp only
      rw [hs]
  · intro out hout
    unfold analyze_native at hout
    cases hd : dec input with
    | error e => rw [hd] at hout; cases hout
    | ok g =>
      rw [hd] at hout
      dsimp only at hout
      cases he : enc (analyzeGraphSeed g (enum g)) with
      | error e => rw [he] at hout; cases hout
      | ok s =>
        rw [he] at hout
        cases hout
        exact ⟨g, rfl, he⟩
  · intro e herr
    unfold analyze_native at herr
    cases hd : dec input with
    | error e2 =>
      rw [hd] at herr
      cases herr
      exact Or.inl ⟨e2, rfl, rfl⟩
    | ok g =>
      rw [hd] at herr
      dsimp only at herr
      cases he : enc (analyzeGraphSeed g (enum g)) with
      | error e2 =>
        rw [he] at herr
        cases herr
        exact Or.inr ⟨g, e2, rfl, he, rfl⟩
      | ok s => rw [he] at herr; cases herr

/-- Witness for C8 with a concrete codec: decode failure surfaces as a
`Parse error: ` message; decode and encode success yields `Ok`. -/
theorem claim_C8_analyze_native_witness :
    analyze_native (fun s => if s = "g" then .ok gSingle else .error "bad")
      (fun _ => .ok "out") (fun g2 => degKeys g2) "x" =
        .error ("Parse error: " ++ "bad") ∧
    analyze_native (fun s => if s = "g" then .ok gSingle else .error "bad")
      (fun _ => .ok "out") (fun g2 => degKeys g2) "g" = .ok "out" :=
  ⟨(claim_C8_analyze_native _ _ _ "x").1 "bad" rfl,
   ((claim_C8_analyze_native _ _ _ "g").2.1 gSingle rfl).2 "out" rfl⟩

/-- CLAIM C1: with the decode and encode stages fixed, the output of
`analyze_native` does not depend on the hash-map enumeration order (the
only run-to-run varying internal state — the zero-in-degree seed queue is
sorted before use), so two invocations on identical input produce
identical output. -/
theorem claim_C1_determinism (dec : String → Except String LogicalGraph)
    (enc : AnalysisResult → Except String String)
    (f1 f2 : LogicalGraph → List String) (input : String)
    (h1 : ∀ g, List.Perm (f1 g) (degKeys g))
    (h2 : ∀ g, List.Perm (f2 g) (degKeys g)) :
    analyze_native dec enc f1 input = analyze_native dec enc f2 input := by
  unfold analyze_native
  cases hd : dec input with
  | error e => rfl
  | ok g =>
    have hres : analyzeGraphSeed g (f1 g) = analyzeGraphSeed g (f2 g) := by
      unfold analyzeGraphSeed
      rw [topological_sort_seed_perm g (f1 g) (f2 g) (h1 g) (h2 g)]
    dsimp only
    rw [hres]

/-- Witness for C1: reversing the enumeration does not change the
output on a concrete run. -/
theorem claim_C1_determinism_witness :
    analyze_native (fun _ => .ok gChain) (fun _ => .ok "o")
      (fun gg => (degKeys gg).reverse) "in" =
    analyze_native (fun _ => .ok gChain) (fun _ => .ok "o")
      (fun gg => degKeys gg) "in" :=
  claim_C1_determinism _ _ _ _ "in" (fun _ => List.reverse_perm _)
    (fun _ => List.Perm.refl _)
